import Mathlib

/-!
Verification of the attention-tracking backend core.

Each definition below is a shallow embedding of a Python function of the
repository (module and function named in its doc comment).  Machine floats
are modelled as exact rationals (`ℚ`); where the source calls `np.sqrt` on a
float, the square root is taken as an explicit function parameter, so every
theorem quantifying over it holds for any square-root implementation.
Python dicts that preserve insertion order are modelled as association lists.
-/

namespace AttentionApp

/-! ## `core/utils.py` -/

/-- A detection as consumed by `count_statuses` (core/utils.py): only the
`status` field is read there; a missing key is modelled as `none`
(the source reads `detection.get('status', '')`). -/
structure Detection where
  status : Option String
deriving DecidableEq, Repr

/-- The `{"green", "yellow", "red", "total"}` counts dictionary. -/
structure Stats where
  green : Nat
  yellow : Nat
  red : Nat
  total : Nat
deriving DecidableEq, Repr

/-- One iteration of the loop body of `count_statuses` (core/utils.py). -/
def countStep (counts : Stats) (detection : Detection) : Stats :=
  let status := detection.status.getD ""
  let counts :=
    if status = "Looking at camera" then { counts with green := counts.green + 1 }
    else if status = "Not looking at camera" then { counts with yellow := counts.yellow + 1 }
    else if status = "No face detected" then { counts with red := counts.red + 1 }
    else counts
  { counts with total := counts.total + 1 }

/-- Embedding of `count_statuses` (core/utils.py): fold the loop body over the
detections starting from all-zero counts. -/
def count_statuses (detections : List Detection) : Stats :=
  detections.foldl countStep ⟨0, 0, 0, 0⟩

/-! ## `core/head_pose.py` -/

/-- Python's binary `max`, written as an executable conditional (Mathlib's
lattice `max` on `ℚ` does not reduce in the kernel).  Provably equal to
`max`, see `pymax_eq_max`. -/
def pymax (a b : ℚ) : ℚ := if a ≤ b then b else a

/-- Python's binary `min`, written as an executable conditional.  Provably
equal to `min`, see `pymin_eq_min`. -/
def pymin (a b : ℚ) : ℚ := if a ≤ b then a else b

/-- Embedding of `HeadPoseEstimator.classify_attention` (core/head_pose.py) for
a present `person_id`.  The relevant state is that identity's entry of
`self.attention_confidence` (a missing key is modelled as `[]`, matching the
source's initialisation).  Returns the status string and the updated history.
The thresholds are the constructor parameters `yaw_threshold` and
`pitch_threshold` (defaults 25.0 and 20.0); `min_attention_confidence` is the
fixed 0.7 of the source. -/
def classify_attention (yawThreshold pitchThreshold : ℚ) (yaw pitch : ℚ)
    (history : List ℚ) : String × List ℚ :=
  let yaw_confidence := pymax 0 (1 - |yaw| / 90)
  let pitch_confidence := pymax 0 (1 - |pitch| / 90)
  let attention_confidence := yaw_confidence * 0.6 + pitch_confidence * 0.4
  let hist := history ++ [attention_confidence]
  let hist := if hist.length > 10 then hist.drop 1 else hist
  let avg_confidence := hist.sum / (hist.length : ℚ)
  if |yaw| ≤ yawThreshold ∧ |pitch| ≤ pitchThreshold ∧ avg_confidence ≥ 0.7 then
    ("Looking at camera", hist)
  else
    ("Not looking at camera", hist)

/-- Embedding of `HeadPoseEstimator.smooth_pose` (core/head_pose.py).  The
relevant state is the identity's entry of `self.pose_history` (missing key
modelled as `[]`); `max_history` is the fixed 12 of the source.  Returns the
smoothed `(yaw, pitch)` and the updated history. -/
def smooth_pose (history : List (ℚ × ℚ)) (yaw pitch : ℚ) : (ℚ × ℚ) × List (ℚ × ℚ) :=
  let hist := history ++ [(yaw, pitch)]
  let hist := if hist.length > 12 then hist.drop 1 else hist
  if hist.length = 1 then ((yaw, pitch), hist)
  else
    let weights := List.range' 1 hist.length
    let total_weight : ℚ := (weights.map (fun w => (Nat.cast w : ℚ))).sum
    let smoothed_yaw := ((hist.zip weights).map (fun pw => pw.1.1 * (Nat.cast pw.2 : ℚ))).sum / total_weight
    let smoothed_pitch := ((hist.zip weights).map (fun pw => pw.1.2 * (Nat.cast pw.2 : ℚ))).sum / total_weight
    ((smoothed_yaw, smoothed_pitch), hist)

/-- The linearly-weighted average described by the spec, written independently
of the source: the i-th sample in oldest-to-newest order has weight i
(1-based), so the total weight of n samples is n·(n+1)/2. -/
def specLinWeightedAvg (samples : List ℚ) : ℚ :=
  ((samples.enum.map (fun ip => (Nat.cast (ip.1 + 1) : ℚ) * ip.2)).sum) /
    (((samples.length : ℚ) * ((samples.length : ℚ) + 1)) / 2)

/-! ## `core/tracker.py` -/

/-- Python's binary `max` on integers, as an executable conditional. -/
def imax (a b : Int) : Int := if a ≤ b then b else a

/-- Python's binary `min` on integers, as an executable conditional. -/
def imin (a b : Int) : Int := if a ≤ b then a else b

/-- A bounding box `[x1, y1, x2, y2]` with integer coordinates. -/
structure BBox where
  x1 : Int
  y1 : Int
  x2 : Int
  y2 : Int
deriving DecidableEq, Repr

/-- One track's info dict: `{'bbox': …, 'disappeared': …, 'last_seen': …}`. -/
structure Track where
  bbox : BBox
  disappeared : Nat
  last_seen : Nat
deriving DecidableEq, Repr

/-- The `PersonTracker` state (core/tracker.py).  `tracks` is the
insertion-ordered dict `{track_id: track_info}`. -/
structure PersonTracker where
  iou_threshold : ℚ
  max_disappeared : Nat
  tracks : List (Nat × Track)
  next_id : Nat
  frame_count : Nat

/-- `PersonTracker.__init__` (defaults `iou_threshold=0.3`,
`max_disappeared=15`). -/
def initTracker (iou_threshold : ℚ) (max_disappeared : Nat) : PersonTracker :=
  ⟨iou_threshold, max_disappeared, [], 1, 0⟩

/-- Embedding of `PersonTracker.calculate_iou`. -/
def calculate_iou (box1 box2 : BBox) : ℚ :=
  let x1 := imax box1.x1 box2.x1
  let y1 := imax box1.y1 box2.y1
  let x2 := imin box1.x2 box2.x2
  let y2 := imin box1.y2 box2.y2
  if x2 ≤ x1 ∨ y2 ≤ y1 then 0
  else
    let intersection : ℚ := (((x2 - x1) * (y2 - y1) : Int) : ℚ)
    let area1 : ℚ := (((box1.x2 - box1.x1) * (box1.y2 - box1.y1) : Int) : ℚ)
    let area2 : ℚ := (((box2.x2 - box2.x1) * (box2.y2 - box2.y1) : Int) : ℚ)
    let union := area1 + area2 - intersection
    if union ≤ 0 then 0
    else intersection / union

/-- Embedding of `PersonTracker._get_center`. -/
def get_center (bbox : BBox) : ℚ × ℚ :=
  (((bbox.x1 : ℚ) + (bbox.x2 : ℚ)) / 2, ((bbox.y1 : ℚ) + (bbox.y2 : ℚ)) / 2)

/-- Lookup in an insertion-ordered dict modelled as an association list. -/
def lookupTrack (tracks : List (Nat × Track)) (id : Nat) : Option Track :=
  (tracks.find? (fun p => p.1 == id)).map (fun p => p.2)

/-- Candidate matches `(detection_idx, track_id, score)` in the source's
enumeration order: detections outer, insertion-ordered tracks inner.  The
source's `if track_id in matched_tracks: continue` test is vacuous at this
point (`matched_tracks` is still empty when candidates are built), so it is
omitted.  `sqrtA` stands for the floating-point `np.sqrt`; the theorems hold
for every choice of it. -/
def match_candidates (sqrtA : ℚ → ℚ) (iou_threshold : ℚ) (tracks : List (Nat × Track))
    (detections : List BBox) : List (Nat × Nat × ℚ) :=
  (detections.enum.map (fun idet =>
    tracks.filterMap (fun ttr =>
      let iou := calculate_iou idet.2 ttr.2.bbox
      if iou > iou_threshold then
        let det_center := get_center idet.2
        let track_center := get_center ttr.2.bbox
        let distance := sqrtA ((det_center.1 - track_center.1) ^ 2
          + (det_center.2 - track_center.2) ^ 2)
        let normalized_distance := pymin (distance / 200) 1
        some (idet.1, ttr.1, iou * 0.8 + (1 - normalized_distance) * 0.2)
      else none))).flatten

/-- Stable insertion into a descending-by-score list: the new element goes
after every element whose score is at least its own, so elements of equal
score keep their original relative order, exactly as Python's stable sort
does. -/
def insertCandidate (c : Nat × Nat × ℚ) : List (Nat × Nat × ℚ) → List (Nat × Nat × ℚ)
  | [] => [c]
  | d :: rest => if c.2.2 ≤ d.2.2 then d :: insertCandidate c rest else c :: d :: rest

/-- The source's `match_candidates.sort(key=lambda x: x[2], reverse=True)`:
Python's stable sort in descending score order, realised as a structurally
recursive stable insertion sort (so that concrete runs reduce in the kernel);
`sortCandidates_perm` and `sortCandidates_sorted` characterise it. -/
def sortCandidates : List (Nat × Nat × ℚ) → List (Nat × Nat × ℚ)
  | [] => []
  | c :: rest => insertCandidate c (sortCandidates rest)

/-- State of the greedy assignment loop of `PersonTracker.update`:
the (mutated) tracks dict, the `matched_tracks` and `matched_detections`
sets, and the `detection['id'] = track_id` assignments made so far. -/
structure GreedySt where
  tracks : List (Nat × Track)
  matched_tracks : List Nat
  matched_detections : List Nat
  assigned : List (Nat × Nat)

/-- One iteration of the greedy loop over sorted candidates. -/
def greedy_step (detections : List BBox) (fc : Nat) (st : GreedySt)
    (c : Nat × Nat × ℚ) : GreedySt :=
  if c.1 ∉ st.matched_detections ∧ c.2.1 ∉ st.matched_tracks then
    match detections.get? c.1 with
    | some bbox =>
      ⟨st.tracks.map (fun p => (p.1, if p.1 = c.2.1 then ⟨bbox, 0, fc⟩ else p.2)),
       c.2.1 :: st.matched_tracks,
       c.1 :: st.matched_detections,
       (c.1, c.2.1) :: st.assigned⟩
    | none => st
  else st

/-- The full greedy matching pass of `PersonTracker.update` on one frame
(frame counter already incremented). -/
def greedyResult (sqrtA : ℚ → ℚ) (t : PersonTracker) (detections : List BBox) : GreedySt :=
  (sortCandidates (match_candidates sqrtA t.iou_threshold t.tracks detections)).foldl
    (greedy_step detections (t.frame_count + 1)) ⟨t.tracks, [], [], []⟩

/-- The source's "create new tracks for unmatched detections" loop: walks the
enumerated detections, skipping matched indices, assigning `next_id` to each
unmatched one and bumping it.  Returns (new tracks, new `(idx, id)`
assignments, final next_id). -/
def create_new_tracks (fc : Nat) (matched_detections : List Nat) :
    List (Nat × BBox) → Nat → List (Nat × Track) × List (Nat × Nat) × Nat
  | [], next_id => ([], [], next_id)
  | idet :: rest, next_id =>
    if idet.1 ∈ matched_detections then
      create_new_tracks fc matched_detections rest next_id
    else
      let r := create_new_tracks fc matched_detections rest (next_id + 1)
      ((next_id, ⟨idet.2, 0, fc⟩) :: r.1, (idet.1, next_id) :: r.2.1, r.2.2)

/-- Read a detection's assigned id off the assignment list. -/
def lookupAssign (assigns : List (Nat × Nat)) (i : Nat) : Option Nat :=
  (assigns.find? (fun p => p.1 == i)).map (fun p => p.2)

/-- The new-track assignments made by one `update` call (ids given to
detections left unmatched by the greedy pass). -/
def newAssigns (sqrtA : ℚ → ℚ) (t : PersonTracker) (detections : List BBox) :
    List (Nat × Nat) :=
  (create_new_tracks (t.frame_count + 1) (greedyResult sqrtA t detections).matched_detections
    detections.enum t.next_id).2.1

/-- Embedding of `PersonTracker.update` (core/tracker.py).  Returns the new
tracker state and the input detections annotated with their assigned ids (the
source sets `detection['id']` in place; every detection does get an id, which
here is a theorem rather than a definitional fact, hence `Option`).
Branches, in source order: empty input ages all tracks and cleans up; an empty
track dict assigns fresh sequential ids; otherwise greedy matching, new-track
creation, aging of all unmatched track ids (note: this includes the tracks
just created, exactly as in the source), and cleanup. -/
def update (sqrtA : ℚ → ℚ) (t : PersonTracker) (detections : List BBox) :
    PersonTracker × List (BBox × Option Nat) :=
  let fc := t.frame_count + 1
  if detections.isEmpty then
    let aged := t.tracks.map (fun p => (p.1, { p.2 with disappeared := p.2.disappeared + 1 }))
    let cleaned := aged.filter (fun p => ¬ p.2.disappeared > t.max_disappeared)
    ({ t with tracks := cleaned, frame_count := fc }, [])
  else if t.tracks.isEmpty then
    let r := create_new_tracks fc [] detections.enum t.next_id
    ({ t with tracks := t.tracks ++ r.1, next_id := r.2.2, frame_count := fc },
     detections.enum.map (fun idet => (idet.2, lookupAssign r.2.1 idet.1)))
  else
    let g := greedyResult sqrtA t detections
    let r := create_new_tracks fc g.matched_detections detections.enum t.next_id
    let all_tracks := g.tracks ++ r.1
    let aged := all_tracks.map (fun p =>
      (p.1, if p.1 ∈ g.matched_tracks then p.2
            else { p.2 with disappeared := p.2.disappeared + 1 }))
    let cleaned := aged.filter (fun p => ¬ p.2.disappeared > t.max_disappeared)
    let assigns := g.assigned ++ r.2.1
    ({ t with tracks := cleaned, next_id := r.2.2, frame_count := fc },
     detections.enum.map (fun idet => (idet.2, lookupAssign assigns idet.1)))

/-- Iterated updates (one call per list of detections). -/
def runUpdates (sqrtA : ℚ → ℚ) : PersonTracker → List (List BBox) → PersonTracker
  | t, [] => t
  | t, d :: rest => runUpdates sqrtA (update sqrtA t d).1 rest

/-- `unmatchedRun sqrtA id t inputs` holds when track `id` is left unmatched
by the greedy pass of every one of the successive `update` calls on `inputs`. -/
def unmatchedRun (sqrtA : ℚ → ℚ) (id : Nat) : PersonTracker → List (List BBox) → Bool
  | _, [] => true
  | t, d :: rest =>
    decide (id ∉ (greedyResult sqrtA t d).matched_tracks)
      && unmatchedRun sqrtA id (update sqrtA t d).1 rest

/-- Well-formedness of the tracker state: distinct track ids, all below the
id counter. -/
def TrackerWF (t : PersonTracker) : Prop :=
  (t.tracks.map Prod.fst).Nodup ∧ ∀ p ∈ t.tracks, p.1 < t.next_id

instance (t : PersonTracker) : Decidable (TrackerWF t) := by
  unfold TrackerWF
  infer_instance

/-! ## `services/isolated_camera_processor.py` -/

/-- A submitted frame dict `{'frame': frame.copy(), 'width': …, 'height': …,
'timestamp': …}`; the frame payload is abstracted to a `Nat` identifier. -/
structure FrameData where
  frame : Nat
  width : Nat
  height : Nat
  timestamp : Nat
deriving DecidableEq, Repr

/-- The state of one `IsolatedCameraProcessor` relevant to frame handoff: the
pending-frame queue (`self.frame_queue`), plus the record of frame payloads the
processing loop has consumed so far (instrumentation for stating which frames
can ever be processed; not a field of the source class). -/
structure CameraSlot where
  frame_queue : List FrameData
  processed : List Nat
deriving DecidableEq, Repr

/-- A freshly constructed processor: empty queue, nothing processed. -/
def initSlot : CameraSlot := ⟨[], []⟩

/-- Embedding of `IsolatedCameraProcessor.submit_frame`: the whole pending
queue is replaced by a one-element list holding the new frame
(`self.frame_queue = [{…}]`). -/
def submit_frame (st : CameraSlot) (frame width height timestamp : Nat) : CameraSlot :=
  { st with frame_queue := [⟨frame, width, height, timestamp⟩] }

/-- One iteration of `IsolatedCameraProcessor._processing_loop`: pop the head
of the queue if any and process it; otherwise idle. -/
def loop_iteration (st : CameraSlot) : CameraSlot :=
  match st.frame_queue with
  | [] => st
  | fd :: rest => ⟨rest, fd.frame :: st.processed⟩

/-- An interleaving event on a camera slot: a producer `submit` or one
consumer loop iteration. -/
inductive CamEvent where
  | submit (frame width height timestamp : Nat)
  | consume
deriving DecidableEq, Repr

/-- Apply one event. -/
def camStep (st : CameraSlot) : CamEvent → CameraSlot
  | CamEvent.submit f w h ts => submit_frame st f w h ts
  | CamEvent.consume => loop_iteration st

/-- Run a sequence of interleaved events. -/
def camRun (st : CameraSlot) (events : List CamEvent) : CameraSlot :=
  events.foldl camStep st

/-- Whether an event submits the frame payload `f`. -/
def submitsFrame (f : Nat) : CamEvent → Bool
  | CamEvent.submit g _ _ _ => g == f
  | CamEvent.consume => false

/-! ## `services/parallel_processor.py` -/

/-- Embedding of `ParallelProcessor.process_frame_parallel`: run the shared
pipeline on one frame; an exception (modelled by `Except.error`) degrades to
the original frame with zeroed stats.  `process_frame` stands for the external
`pipeline.process_frame`. -/
def process_frame_parallel (process_frame : Nat → Nat → Nat → Except String (Nat × Stats))
    (camera_id : Nat) (frame width height : Nat) : Nat × Stats :=
  match process_frame frame width height with
  | Except.ok r => r
  | Except.error _ => (frame, ⟨0, 0, 0, 0⟩)

/-- Python dict assignment on an insertion-ordered association list: an
existing key is updated in place, a new key is appended. -/
def dict_set {β : Type} (q : List (Nat × β)) (cid : Nat) (v : β) : List (Nat × β) :=
  if (q.find? (fun p => p.1 == cid)).isSome then
    q.map (fun p => if p.1 = cid then (p.1, v) else p)
  else q ++ [(cid, v)]

/-- Embedding of `ParallelProcessor.submit_frame_for_processing`: stage one
frame per camera id, overwriting any unconsumed stage. -/
def submit_frame_for_processing (q : List (Nat × FrameData)) (cid : Nat)
    (fd : FrameData) : List (Nat × FrameData) :=
  dict_set q cid fd

/-- Embedding of `ParallelProcessor.process_pending_frames`: atomically take
and clear the staged set and process each staged frame once, collecting the
results keyed by camera id.  (The `try/except` around `future.result()` in the
source is unreachable because `process_frame_parallel` already catches; worker
completion order only affects dict insertion order, which the keyed lookup
below abstracts over.)  Returns (results, remaining staged set). -/
def process_pending_frames (process_frame : Nat → Nat → Nat → Except String (Nat × Stats))
    (q : List (Nat × FrameData)) :
    List (Nat × (Nat × Stats)) × List (Nat × FrameData) :=
  if q.isEmpty then ([], q)
  else
    let frames_to_process := q
    let results := frames_to_process.map (fun p =>
      (p.1, process_frame_parallel process_frame p.1 p.2.frame p.2.width p.2.height))
    (results, [])

/-- Read one camera's result off the drained result set. -/
def lookupResult (results : List (Nat × (Nat × Stats))) (cid : Nat) : Option (Nat × Stats) :=
  (results.find? (fun p => p.1 == cid)).map (fun p => p.2)

/-! ## `services/video_job.py` -/

/-- One job dict of `VideoJobManager.jobs`. -/
structure Job where
  job_id : String
  input_path : String
  output_path : String
  state : String
  progress : Int
  error : Option String
  created_at : ℚ
  started_at : Option ℚ
  completed_at : Option ℚ
deriving DecidableEq, Repr

/-- Embedding of `VideoJobManager.create_job`'s stored job (before the
background thread runs). -/
def create_job (job_id input_path output_dir : String) (created : ℚ) : Job :=
  ⟨job_id, input_path, output_dir ++ "/" ++ job_id ++ "_processed.mp4",
   "pending", 0, none, created, none, none⟩

/-- The input video as seen through OpenCV: header metadata (including the
`CAP_PROP_FRAME_COUNT` total, which is metadata and may disagree with the
actual stream) and the actually decodable frames. -/
structure VideoMeta where
  fps : Int
  width : Int
  height : Int
  total_frames : Int
  frames : List Nat
deriving DecidableEq, Repr

/-- Python `int(…)` on a float/rational: truncation toward zero. -/
def int_trunc (q : ℚ) : Int := if q < 0 then -Int.floor (-q) else Int.floor q

/-- The frame loop of `VideoJobManager._process_video`: after each frame,
progress becomes `int((frame_count / total_frames) * 100)`.  A zero
`total_frames` raises Python's `ZeroDivisionError` (caught by the outer
handler).  Returns the sequence of progress values reported, one per frame. -/
def process_frames (total_frames : Int) : List Nat → Nat → Except String (List Int)
  | [], _ => Except.ok []
  | _f :: rest, frame_count =>
    let fc := frame_count + 1
    if total_frames = 0 then Except.error "float division by zero"
    else
      let progress := int_trunc ((fc : ℚ) / (total_frames : ℚ) * 100)
      match process_frames total_frames rest fc with
      | Except.ok trace => Except.ok (progress :: trace)
      | Except.error e => Except.error e

/-- Embedding of `VideoJobManager._process_video` for one job: mark running;
fail (state "error", message kept, progress untouched) if the input cannot be
opened or the writer cannot be created; otherwise stream the frames, and on
success mark "done" with progress 100 and a completion timestamp.  `input` is
`none` when `cap.isOpened()` is false; `writerOk` is `out.isOpened()`.
Returns the final job and the reported progress trace. -/
def process_video (input : Option VideoMeta) (writerOk : Bool) (start finish : ℚ)
    (job : Job) : Job × List Int :=
  let job := { job with state := "running", started_at := some start }
  match input with
  | none =>
    ({ job with
        state := "error"
        error := some ("Could not open video file: " ++ job.input_path) }, [])
  | some v =>
    if ¬ writerOk then
      ({ job with
          state := "error"
          error := some ("Could not create output video: " ++ job.output_path) }, [])
    else
      match process_frames v.total_frames v.frames 0 with
      | Except.error e => ({ job with state := "error", error := some e }, [])
      | Except.ok trace =>
        ({ job with
            state := "done"
            progress := 100
            completed_at := some finish }, trace)

/-! ## `services/video_recorder.py` — `VideoRecorder` -/

/-- One recording's info dict in `VideoRecorder.active_recordings`
(the `video_writer` handle is abstracted away). -/
structure RecordingInfo where
  recording_id : String
  filepath : String
  start_time : ℚ
  frame_count : Nat
  width : Nat
  height : Nat
  fps : Nat
  camera_ids : Option (List Nat)
  custom_name : Option String
  is_recording : Bool
deriving DecidableEq, Repr

/-- The `VideoRecorder` state the stop path touches: the recordings dict and
the set of recording ids with a live attention tracker. -/
structure RecorderState where
  active_recordings : List (String × RecordingInfo)
  attention_trackers : List String
deriving DecidableEq, Repr

/-- The summary dict returned by `stop_recording`. -/
structure RecordingSummary where
  recording_id : String
  filepath : String
  duration : ℚ
  frame_count : Nat
  width : Nat
  height : Nat
  fps : Nat
  camera_ids : Option (List Nat)
  custom_name : Option String
  file_size : Nat
deriving DecidableEq, Repr

/-- Embedding of `VideoRecorder.stop_recording`: an unknown id returns `None`
and leaves the state untouched; otherwise release the writer, stop and drop
the attention tracker, build the summary (duration = now − start_time,
`file_size` read from the filesystem, modelled by the `fileSize` function),
and delete the session.  (The transient `is_recording = False` mutation is
unobservable: the entry is deleted in the same call.) -/
def stop_recording (now : ℚ) (fileSize : String → Nat) (st : RecorderState)
    (recording_id : String) : Option RecordingSummary × RecorderState :=
  match st.active_recordings.find? (fun p => p.1 == recording_id) with
  | none => (none, st)
  | some p =>
    let info := p.2
    let summary : RecordingSummary :=
      ⟨recording_id, info.filepath, now - info.start_time, info.frame_count,
       info.width, info.height, info.fps, info.camera_ids, info.custom_name,
       fileSize info.filepath⟩
    (some summary,
     ⟨st.active_recordings.filter (fun q => ¬ q.1 == recording_id),
      st.attention_trackers.filter (fun x => ¬ x == recording_id)⟩)

/-! ## `services/video_recorder.py` — `MultiCameraVideoRecorder` -/

/-- A raster frame: dimensions plus a pixel function (pixel values abstracted
to `Nat`, with 0 the blank/black pixel `np.zeros` fills in). -/
structure Frame where
  height : Nat
  width : Nat
  pixel : Nat → Nat → Nat

/-- `int(np.ceil(np.sqrt(n)))` over the exact integers (the float sqrt of the
source agrees on every realistic camera count). -/
def ceil_sqrt (n : Nat) : Nat :=
  if Nat.sqrt n * Nat.sqrt n = n then Nat.sqrt n else Nat.sqrt n + 1

/-- `int(np.ceil(a / b))` for positive `b` over the exact integers. -/
def ceil_div (a b : Nat) : Nat := (a + b - 1) / b

/-- The layout computation of `start_multi_camera_recording`
(video_recorder.py lines 292-303): number of cameras to
(layout_width, layout_height), in units of one camera frame. -/
def layout_dims (num_cameras frame_width frame_height : Nat) : Nat × Nat :=
  if num_cameras = 1 then (frame_width, frame_height)
  else if num_cameras = 2 then (frame_width * 2, frame_height)
  else if num_cameras ≤ 4 then (frame_width * 2, frame_height * 2)
  else
    let cols := ceil_sqrt num_cameras
    let rows := ceil_div num_cameras cols
    (frame_width * cols, frame_height * rows)

/-- The grid layout the spec describes for more than four cameras, written
from the spec's words: a ceil(√n) × ceil(√n) grid. -/
def specLayoutDims (num_cameras frame_width frame_height : Nat) : Nat × Nat :=
  if num_cameras = 1 then (frame_width, frame_height)
  else if num_cameras = 2 then (frame_width * 2, frame_height)
  else if num_cameras ≤ 4 then (frame_width * 2, frame_height * 2)
  else (frame_width * ceil_sqrt num_cameras, frame_height * ceil_sqrt num_cameras)

/-- The cell origin for the camera at position `i` of the session's camera
list (`_create_layout_frame` lines 409-420): (x, y) in pixels. -/
def cell_pos (num_cameras i frame_width frame_height : Nat) : Nat × Nat :=
  if num_cameras = 1 then (0, 0)
  else if num_cameras = 2 then (i * frame_width, 0)
  else if num_cameras ≤ 4 then ((i % 2) * frame_width, (i / 2) * frame_height)
  else
    let cols := ceil_sqrt num_cameras
    ((i % cols) * frame_width, (i / cols) * frame_height)

/-- `layout_frame[y:y+h, x:x+w] = frame`: overwrite one rectangular region of
a pixel function. -/
def write_cell (acc : Nat → Nat → Nat) (x y w h : Nat) (f : Nat → Nat → Nat) :
    Nat → Nat → Nat :=
  fun r c => if y ≤ r ∧ r < y + h ∧ x ≤ c ∧ c < x + w then f (r - y) (c - x) else acc r c

/-- The body of `_create_layout_frame`'s placement loop for one enumerated
session camera `icam = (i, camera_id)`: skip it if it is missing from this
write's frame map (`continue`, its cell stays blank); otherwise place its
(resized if necessary) frame into its cell. -/
def layout_place (resizeF : Frame → Nat → Nat → Frame)
    (camera_frames : List (Nat × Frame)) (num_cameras frame_width frame_height : Nat)
    (acc : Nat → Nat → Nat) (icam : Nat × Nat) : Nat → Nat → Nat :=
  match camera_frames.find? (fun p => p.1 == icam.2) with
  | none => acc
  | some p =>
    let frame := if p.2.height = frame_height ∧ p.2.width = frame_width then p.2
                 else resizeF p.2 frame_width frame_height
    let pos := cell_pos num_cameras icam.1 frame_width frame_height
    write_cell acc pos.1 pos.2 frame_width frame_height frame.pixel

/-- Embedding of `MultiCameraVideoRecorder._create_layout_frame` as the pixel
function of the composited layout: start from `np.zeros`, then run the
placement loop over the enumerated session camera list.  `resizeF` stands for
the external `cv2.resize`. -/
def create_layout_frame (resizeF : Frame → Nat → Nat → Frame)
    (camera_frames : List (Nat × Frame)) (camera_ids : List Nat)
    (num_cameras frame_width frame_height : Nat) : Nat → Nat → Nat :=
  camera_ids.enum.foldl
    (layout_place resizeF camera_frames num_cameras frame_width frame_height)
    (fun _ _ => 0)

/-- One multi-camera recording's info dict (writer handle abstracted away). -/
structure MultiRecInfo where
  recording_id : String
  filepath : String
  start_time : ℚ
  frame_count : Nat
  layout_width : Nat
  layout_height : Nat
  frame_width : Nat
  frame_height : Nat
  fps : Nat
  camera_ids : List Nat
  num_cameras : Nat
  is_recording : Bool

/-- Embedding of `MultiCameraVideoRecorder.write_multi_camera_frame`: a no-op
(`false`) on an unknown or inactive id; otherwise composite the layout frame,
write it, and bump the frame count.  Returns (success, new recordings dict,
the layout frame written, if any). -/
def write_multi_camera_frame (resizeF : Frame → Nat → Nat → Frame)
    (recs : List (String × MultiRecInfo)) (recording_id : String)
    (camera_frames : List (Nat × Frame)) :
    Bool × List (String × MultiRecInfo) × Option (Nat → Nat → Nat) :=
  match recs.find? (fun p => p.1 == recording_id) with
  | none => (false, recs, none)
  | some p =>
    if ¬ p.2.is_recording then (false, recs, none)
    else
      let layout := create_layout_frame resizeF camera_frames p.2.camera_ids
        p.2.num_cameras p.2.frame_width p.2.frame_height
      (true,
       recs.map (fun q => if q.1 = recording_id
         then (q.1, { q.2 with frame_count := q.2.frame_count + 1 }) else q),
       some layout)

/-! ## Theorems -/

/-- Helper: closed form of the `count_statuses` fold. -/
theorem countStatuses_foldl (l : List Detection) (c : Stats) :
    l.foldl countStep c =
      ⟨c.green + l.countP (fun d => d.status.getD "" = "Looking at camera"),
       c.yellow + l.countP (fun d => d.status.getD "" = "Not looking at camera"),
       c.red + l.countP (fun d => d.status.getD "" = "No face detected"),
       c.total + l.length⟩ := by
  induction l generalizing c with
  | nil => simp
  | cons d l ih =>
    rw [List.foldl_cons, ih]
    simp only [List.countP_cons, List.length_cons]
    unfold countStep
    rcases c with ⟨g, y, r, t⟩
    by_cases h1 : d.status.getD "" = "Looking at camera" <;>
      by_cases h2 : d.status.getD "" = "Not looking at camera" <;>
        by_cases h3 : d.status.getD "" = "No face detected" <;>
          simp_all <;> omega

/-- C10: `count_statuses` returns `total` equal to the number of detections,
while `green`, `yellow`, `red` count exactly the detections whose status is
"Looking at camera", "Not looking at camera", "No face detected" respectively;
hence green+yellow+red ≤ total, and a detection with a missing or unrecognized
status contributes to `total` only. -/
theorem count_statuses_spec (detections : List Detection) :
    (count_statuses detections).total = detections.length ∧
    (count_statuses detections).green
      = (detections.filter (fun d => d.status = some "Looking at camera")).length ∧
    (count_statuses detections).yellow
      = (detections.filter (fun d => d.status = some "Not looking at camera")).length ∧
    (count_statuses detections).red
      = (detections.filter (fun d => d.status = some "No face detected")).length ∧
    (count_statuses detections).green + (count_statuses detections).yellow
      + (count_statuses detections).red ≤ (count_statuses detections).total ∧
    count_statuses [⟨none⟩] = ⟨0, 0, 0, 1⟩ ∧
    count_statuses [⟨some "unrecognized"⟩] = ⟨0, 0, 0, 1⟩ := by
  have key : ∀ s : String, ∀ d : Detection, (d.status.getD "" = s ↔ d.status = some s) ∨ s = "" := by
    intro s d
    by_cases hs : s = ""
    · right; exact hs
    · left
      rcases d with ⟨st⟩
      cases st with
      | none => simp [Option.getD]; intro h; exact hs h.symm
      | some v => simp [Option.getD]
  unfold count_statuses
  rw [countStatuses_foldl]
  refine ⟨by simp, ?_, ?_, ?_, ?_, by decide, by decide⟩
  · simp only [Nat.zero_add, List.countP_eq_length_filter]
    congr 1
    apply List.filter_congr
    intro d _
    rcases key "Looking at camera" d with h | h
    · simp [h]
    · simp at h
  · simp only [Nat.zero_add, List.countP_eq_length_filter]
    congr 1
    apply List.filter_congr
    intro d _
    rcases key "Not looking at camera" d with h | h
    · simp [h]
    · simp at h
  · simp only [Nat.zero_add, List.countP_eq_length_filter]
    congr 1
    apply List.filter_congr
    intro d _
    rcases key "No face detected" d with h | h
    · simp [h]
    · simp at h
  · simp only [Nat.zero_add]
    induction detections with
    | nil => simp
    | cons d l ih =>
      simp only [List.countP_cons, List.length_cons]
      by_cases h1 : d.status.getD "" = "Looking at camera" <;>
        by_cases h2 : d.status.getD "" = "Not looking at camera" <;>
          by_cases h3 : d.status.getD "" = "No face detected" <;>
            simp_all <;> omega

/-- Helper: `pymax` is the lattice `max`. -/
theorem pymax_eq_max (a b : ℚ) : pymax a b = max a b := by
  unfold pymax
  split
  · exact (max_eq_right (by assumption)).symm
  · exact (max_eq_left (le_of_not_le (by assumption))).symm

/-- Helper: `pymin` is the lattice `min`. -/
theorem pymin_eq_min (a b : ℚ) : pymin a b = min a b := by
  unfold pymin
  split
  · exact (min_eq_left (by assumption)).symm
  · exact (min_eq_right (le_of_not_le (by assumption))).symm

/-- Helper: the confidence weights commute to the spec's order. -/
theorem conf_comm (yaw pitch : ℚ) :
    max 0 (1 - |yaw| / 90) * 0.6 + max 0 (1 - |pitch| / 90) * 0.4
      = 0.6 * max 0 (1 - |yaw| / 90) + 0.4 * max 0 (1 - |pitch| / 90) := by
  ring

/-- Helper: the bounded-history trim (`pop(0)` when the length exceeds the cap)
agrees with dropping the overflow, for histories within the cap. -/
theorem trim_eq_drop {α : Type} (history : List α) (x : α) (cap : Nat)
    (hlen : history.length ≤ cap) :
    (if (history ++ [x]).length > cap then (history ++ [x]).drop 1 else history ++ [x])
      = (history ++ [x]).drop (history.length + 1 - cap) := by
  simp only [List.length_append, List.length_singleton]
  rcases Nat.lt_or_ge history.length cap with h | h
  · rw [if_neg (by omega)]
    have h0 : history.length + 1 - cap = 0 := by omega
    rw [h0, List.drop_zero]
  · have hc : history.length = cap := le_antisymm hlen h
    rw [if_pos (by omega)]
    congr 1
    omega

/-- C2: `classify_attention` appends the confidence
0.6·max(0,1−|yaw|/90) + 0.4·max(0,1−|pitch|/90) to the identity's history,
keeps only the 10 most recent entries (oldest evicted), and returns
"Looking at camera" iff |yaw| ≤ 25 and |pitch| ≤ 20 and the average stored
confidence is ≥ 0.7, else "Not looking at camera"; on a fresh identity,
yaw = 25.0 (boundary inclusive) with pitch = 0 is Looking and yaw = 25.01 is
NotLooking. -/
theorem classify_attention_spec (yaw pitch : ℚ) (history : List ℚ)
    (hlen : history.length ≤ 10) :
    (classify_attention 25 20 yaw pitch history).2
        = (history ++ [0.6 * max 0 (1 - |yaw| / 90) + 0.4 * max 0 (1 - |pitch| / 90)]).drop
            (history.length + 1 - 10) ∧
    (classify_attention 25 20 yaw pitch history).2.length ≤ 10 ∧
    ((classify_attention 25 20 yaw pitch history).1 = "Looking at camera" ↔
      |yaw| ≤ 25 ∧ |pitch| ≤ 20 ∧
        (classify_attention 25 20 yaw pitch history).2.sum
          / ((classify_attention 25 20 yaw pitch history).2.length : ℚ) ≥ 0.7) ∧
    ((classify_attention 25 20 yaw pitch history).1 = "Looking at camera" ∨
      (classify_attention 25 20 yaw pitch history).1 = "Not looking at camera") ∧
    (classify_attention 25 20 25 0 []).1 = "Looking at camera" ∧
    (classify_attention 25 20 25.01 0 []).1 = "Not looking at camera" := by
  have hres : classify_attention 25 20 yaw pitch history =
      (if |yaw| ≤ 25 ∧ |pitch| ≤ 20 ∧
          ((history ++ [0.6 * max 0 (1 - |yaw| / 90) + 0.4 * max 0 (1 - |pitch| / 90)]).drop
            (history.length + 1 - 10)).sum
          / (((history ++ [0.6 * max 0 (1 - |yaw| / 90) + 0.4 * max 0 (1 - |pitch| / 90)]).drop
            (history.length + 1 - 10)).length : ℚ) ≥ 0.7
        then ("Looking at camera",
          (history ++ [0.6 * max 0 (1 - |yaw| / 90) + 0.4 * max 0 (1 - |pitch| / 90)]).drop
            (history.length + 1 - 10))
        else ("Not looking at camera",
          (history ++ [0.6 * max 0 (1 - |yaw| / 90) + 0.4 * max 0 (1 - |pitch| / 90)]).drop
            (history.length + 1 - 10))) := by
    simp only [classify_attention, pymax_eq_max]
    rw [conf_comm, trim_eq_drop history _ 10 hlen]
  have hlook : (classify_attention 25 20 25 0 []).1 = "Looking at camera" := by
    simp only [classify_attention]
    norm_num [pymax, abs_of_nonneg]
  have hnot : (classify_attention 25 20 25.01 0 []).1 = "Not looking at camera" := by
    simp only [classify_attention]
    norm_num [pymax, abs_of_nonneg]
  rw [hres]
  refine ⟨by split <;> rfl, ?_, ?_, ?_, hlook, hnot⟩
  · split <;>
      · simp only [List.length_drop, List.length_append, List.length_singleton]
        omega
  · split
    · rename_i hC
      exact iff_of_true rfl hC
    · rename_i hC
      refine iff_of_false (fun hcontra => ?_) hC
      simp at hcontra
  · split
    · exact Or.inl rfl
    · exact Or.inr rfl

/-- Witness for `classify_attention_spec` at history `[]`, yaw 25, pitch 0. -/
theorem classify_attention_spec_witness :
    (([] : List ℚ).length ≤ 10) ∧ (classify_attention 25 20 25 0 []).1 = "Looking at camera" :=
  ⟨by decide, (classify_attention_spec 25 0 [] (by decide)).2.2.2.2.1⟩

/-- Helper: the weighted sum over samples zipped with weights `k+1, k+2, …`
is the enumerated weighted sum of the spec. -/
theorem zip_weights_sum {α : Type} (l : List α) (f : α → ℚ) (k : Nat) :
    (((l.map f).enumFrom k).map (fun ip => (Nat.cast (ip.1 + 1) : ℚ) * ip.2)).sum
      = ((l.zip (List.range' (k + 1) l.length)).map (fun pw => f pw.1 * (Nat.cast pw.2 : ℚ))).sum := by
  induction l generalizing k with
  | nil => simp
  | cons x l ih =>
    simp only [List.map_cons, List.enumFrom_cons, List.length_cons, List.range'_succ,
      List.zip_cons_cons, List.sum_cons, ih]
    push_cast
    ring

/-- Helper: the sum of the integer weights `k, k+1, …, k+n−1` as a rational. -/
theorem range'_weight_sum (k n : Nat) :
    ((List.range' k n).map (fun w => (Nat.cast w : ℚ))).sum
      = (n : ℚ) * (k : ℚ) + (n : ℚ) * ((n : ℚ) - 1) / 2 := by
  induction n generalizing k with
  | zero => simp
  | succ n ih =>
    rw [List.range'_succ]
    simp only [List.map_cons, List.sum_cons, ih]
    push_cast
    ring

/-- C5: `smooth_pose` appends the sample to the identity's history keeping the
12 most recent entries (oldest evicted) and returns the linearly-weighted
average in which the i-th sample, oldest-to-newest, has weight i; a history of
a single sample returns the sample unchanged. -/
theorem smooth_pose_spec (history : List (ℚ × ℚ)) (yaw pitch : ℚ)
    (hlen : history.length ≤ 12) :
    (smooth_pose history yaw pitch).2
        = (history ++ [(yaw, pitch)]).drop (history.length + 1 - 12) ∧
    (smooth_pose history yaw pitch).2.length ≤ 12 ∧
    (smooth_pose history yaw pitch).1 =
      (specLinWeightedAvg ((smooth_pose history yaw pitch).2.map Prod.fst),
       specLinWeightedAvg ((smooth_pose history yaw pitch).2.map Prod.snd)) ∧
    smooth_pose [] yaw pitch = ((yaw, pitch), [(yaw, pitch)]) := by
  have havg : ∀ t : List (ℚ × ℚ), ∀ f : (ℚ × ℚ) → ℚ,
      specLinWeightedAvg (t.map f)
        = ((t.zip (List.range' 1 t.length)).map (fun pw => f pw.1 * (Nat.cast pw.2 : ℚ))).sum
          / ((List.range' 1 t.length).map (fun w => (Nat.cast w : ℚ))).sum := by
    intro t f
    unfold specLinWeightedAvg
    rw [show (t.map f).enum = (t.map f).enumFrom 0 from rfl, zip_weights_sum t f 0,
      range'_weight_sum 1 t.length, List.length_map]
    congr 1
    push_cast
    ring
  have hsingle : ∀ y : ℚ, specLinWeightedAvg [y] = y := by
    intro y
    unfold specLinWeightedAvg
    simp [List.enum, List.enumFrom]
  have hres : smooth_pose history yaw pitch =
      (let t := (history ++ [(yaw, pitch)]).drop (history.length + 1 - 12)
       if t.length = 1 then ((yaw, pitch), t)
       else
         (((((t.zip (List.range' 1 t.length)).map (fun pw => pw.1.1 * (Nat.cast pw.2 : ℚ))).sum
             / ((List.range' 1 t.length).map (fun w => (Nat.cast w : ℚ))).sum),
           (((t.zip (List.range' 1 t.length)).map (fun pw => pw.1.2 * (Nat.cast pw.2 : ℚ))).sum
             / ((List.range' 1 t.length).map (fun w => (Nat.cast w : ℚ))).sum)), t)) := by
    simp only [smooth_pose]
    rw [trim_eq_drop history _ 12 hlen]
  have hbase : smooth_pose [] yaw pitch = ((yaw, pitch), [(yaw, pitch)]) := by
    simp [smooth_pose]
  rw [hres]
  dsimp only
  constructor
  · split <;> rfl
  constructor
  · split <;>
      · simp only [List.length_drop, List.length_append, List.length_singleton]
        omega
  constructor
  · split
    · rename_i h1
      have hh : history = [] := by
        rcases history with _ | ⟨a, hs⟩
        · rfl
        · exfalso
          simp only [List.length_drop, List.length_append, List.length_singleton,
            List.length_cons] at h1 hlen
          omega
      subst hh
      show (yaw, pitch) = (specLinWeightedAvg [yaw], specLinWeightedAvg [pitch])
      rw [hsingle yaw, hsingle pitch]
    · rw [havg _ Prod.fst, havg _ Prod.snd]
  · exact hbase

/-- Witness for `smooth_pose_spec` at history `[(1, 2)]`, yaw 3, pitch 4. -/
theorem smooth_pose_spec_witness :
    (([((1 : ℚ), (2 : ℚ))] : List (ℚ × ℚ)).length ≤ 12) ∧
      smooth_pose [] 3 4 = ((3, 4), [(3, 4)]) :=
  ⟨by decide, (smooth_pose_spec [((1 : ℚ), (2 : ℚ))] 3 4 (by decide)).2.2.2⟩

/-! ### Tracker helper lemmas -/

/-- Lookup misses when the key is absent. -/
theorem lookupTrack_eq_none (l : List (Nat × Track)) (id : Nat)
    (h : id ∉ l.map Prod.fst) : lookupTrack l id = none := by
  induction l with
  | nil => rfl
  | cons p rest ih =>
    simp only [List.map_cons, List.mem_cons, not_or] at h
    unfold lookupTrack
    rw [List.find?_cons]
    have hne : (p.1 == id) = false := by
      simp only [beq_eq_false_iff_ne, ne_eq]
      exact fun hc => h.1 hc.symm
    rw [hne]
    exact ih h.2

/-- A found entry carries the looked-up key. -/
theorem find?_key_eq {l : List (Nat × Track)} {id : Nat} {p : Nat × Track}
    (h : l.find? (fun q => q.1 == id) = some p) : p.1 = id := by
  have := List.find?_some h
  simpa using this

/-- Lookup through a key-preserving value map. -/
theorem lookupTrack_map_val (l : List (Nat × Track)) (f : Nat × Track → Track) (id : Nat) :
    lookupTrack (l.map (fun p => (p.1, f p))) id
      = (l.find? (fun p => p.1 == id)).map f := by
  induction l with
  | nil => rfl
  | cons p rest ih =>
    unfold lookupTrack
    simp only [List.map_cons]
    rw [List.find?_cons, List.find?_cons]
    cases hb : (p.1 == id) with
    | true => rfl
    | false => exact ih

/-- Lookup distributes over append. -/
theorem lookupTrack_append (l1 l2 : List (Nat × Track)) (id : Nat) :
    lookupTrack (l1 ++ l2) id = (lookupTrack l1 id).or (lookupTrack l2 id) := by
  unfold lookupTrack
  rw [List.find?_append]
  cases l1.find? (fun p => p.1 == id) <;> rfl

/-- Lookup through a filter, for duplicate-free keys. -/
theorem lookupTrack_filter (l : List (Nat × Track)) (q : Nat × Track → Bool) (id : Nat)
    (tr : Track) (hnd : (l.map Prod.fst).Nodup) (h : lookupTrack l id = some tr) :
    lookupTrack (l.filter q) id = if q (id, tr) then some tr else none := by
  induction l with
  | nil => simp [lookupTrack] at h
  | cons p rest ih =>
    simp only [List.map_cons, List.nodup_cons] at hnd
    cases hb : (p.1 == id) with
    | true =>
      have hkey : p.1 = id := by simpa using hb
      have htr : p.2 = tr := by
        unfold lookupTrack at h
        rw [List.find?_cons_of_pos rest hb] at h
        simpa using h
      have habs : id ∉ (rest.map Prod.fst) := hkey ▸ hnd.1
      cases hq : q p with
      | true =>
        have hqt : q (id, tr) = true := by rw [← hkey, ← htr]; exact hq
        rw [List.filter_cons_of_pos hq, if_pos hqt]
        unfold lookupTrack
        rw [List.find?_cons_of_pos (rest.filter q) hb]
        simp [htr]
      | false =>
        have hqf : ¬ q (id, tr) = true := by rw [← hkey, ← htr]; simp [hq]
        rw [List.filter_cons_of_neg (by simp [hq]), if_neg hqf]
        apply lookupTrack_eq_none
        intro hc
        simp only [List.mem_map] at hc
        rcases hc with ⟨x, hx, hxk⟩
        exact habs (List.mem_map.2 ⟨x, (List.mem_filter.1 hx).1, hxk⟩)
    | false =>
      have h2 : lookupTrack rest id = some tr := by
        unfold lookupTrack at h ⊢
        rw [List.find?_cons_of_neg rest (by simp [hb])] at h
        exact h
      cases hq : q p with
      | true =>
        rw [List.filter_cons_of_pos hq]
        unfold lookupTrack
        rw [List.find?_cons_of_neg (rest.filter q) (by simp [hb])]
        exact ih hnd.2 h2
      | false =>
        rw [List.filter_cons_of_neg (by simp [hq])]
        exact ih hnd.2 h2

/-- `create_new_tracks` never decreases the id counter. -/
theorem cnt_next_le (fc : Nat) (m : List Nat) :
    ∀ (l : List (Nat × BBox)) (next : Nat),
      next ≤ (create_new_tracks fc m l next).2.2 := by
  intro l
  induction l with
  | nil => intro next; exact le_refl next
  | cons idet rest ih =>
    intro next
    unfold create_new_tracks
    split
    · exact ih next
    · exact le_trans (Nat.le_succ next) (ih (next + 1))

/-- Keys of tracks created by `create_new_tracks` lie in `[next, final)`. -/
theorem cnt_new_keys (fc : Nat) (m : List Nat) :
    ∀ (l : List (Nat × BBox)) (next : Nat),
      ∀ p ∈ (create_new_tracks fc m l next).1,
        next ≤ p.1 ∧ p.1 < (create_new_tracks fc m l next).2.2 := by
  intro l
  induction l with
  | nil => intro next p hp; simp [create_new_tracks] at hp
  | cons idet rest ih =>
    intro next p hp
    unfold create_new_tracks at hp ⊢
    split at hp
    · rename_i hm
      rw [if_pos hm]
      exact ih next p hp
    · rename_i hm
      rw [if_neg hm]
      simp only [List.mem_cons] at hp
      rcases hp with hp | hp
      · subst hp
        exact ⟨le_refl next, lt_of_lt_of_le (Nat.lt_succ_self next) (cnt_next_le fc m rest (next + 1))⟩
      · have := ih (next + 1) p hp
        exact ⟨le_trans (Nat.le_succ next) this.1, this.2⟩

/-- Ids handed out by `create_new_tracks` lie in `[next, final)`. -/
theorem cnt_assign_ids (fc : Nat) (m : List Nat) :
    ∀ (l : List (Nat × BBox)) (next : Nat),
      ∀ p ∈ (create_new_tracks fc m l next).2.1,
        next ≤ p.2 ∧ p.2 < (create_new_tracks fc m l next).2.2 := by
  intro l
  induction l with
  | nil => intro next p hp; simp [create_new_tracks] at hp
  | cons idet rest ih =>
    intro next p hp
    unfold create_new_tracks at hp ⊢
    split at hp
    · rename_i hm
      rw [if_pos hm]
      exact ih next p hp
    · rename_i hm
      rw [if_neg hm]
      simp only [List.mem_cons] at hp
      rcases hp with hp | hp
      · subst hp
        exact ⟨le_refl next, lt_of_lt_of_le (Nat.lt_succ_self next) (cnt_next_le fc m rest (next + 1))⟩
      · have := ih (next + 1) p hp
        exact ⟨le_trans (Nat.le_succ next) this.1, this.2⟩

/-- Keys of tracks created by `create_new_tracks` are distinct. -/
theorem cnt_keys_nodup (fc : Nat) (m : List Nat) :
    ∀ (l : List (Nat × BBox)) (next : Nat),
      ((create_new_tracks fc m l next).1.map Prod.fst).Nodup := by
  intro l
  induction l with
  | nil => intro next; simp [create_new_tracks]
  | cons idet rest ih =>
    intro next
    unfold create_new_tracks
    split
    · exact ih next
    · simp only [List.map_cons, List.nodup_cons]
      refine ⟨?_, ih (next + 1)⟩
      intro hc
      simp only [List.mem_map] at hc
      rcases hc with ⟨p, hp, hkey⟩
      have := (cnt_new_keys fc m rest (next + 1) p hp).1
      omega

/-- Insertion keeps exactly the elements. -/
theorem insertCandidate_perm (c : Nat × Nat × ℚ) (l : List (Nat × Nat × ℚ)) :
    (insertCandidate c l).Perm (c :: l) := by
  induction l with
  | nil => exact List.Perm.refl _
  | cons d rest ih =>
    unfold insertCandidate
    split
    · exact ((ih.cons d).trans (List.Perm.swap c d rest)).symm.symm
    · exact List.Perm.refl _

/-- Sorting keeps exactly the candidates. -/
theorem sortCandidates_perm (l : List (Nat × Nat × ℚ)) : (sortCandidates l).Perm l := by
  induction l with
  | nil => exact List.Perm.refl _
  | cons c rest ih =>
    exact (insertCandidate_perm c (sortCandidates rest)).trans (ih.cons c)

/-- Membership is preserved by sorting. -/
theorem mem_sortCandidates (x : Nat × Nat × ℚ) (l : List (Nat × Nat × ℚ)) :
    x ∈ sortCandidates l ↔ x ∈ l :=
  (sortCandidates_perm l).mem_iff

/-- The sorted candidate list is in non-increasing score order. -/
theorem sortCandidates_sorted (l : List (Nat × Nat × ℚ)) :
    (sortCandidates l).Pairwise (fun a b => b.2.2 ≤ a.2.2) := by
  induction l with
  | nil => exact List.Pairwise.nil
  | cons c rest ih =>
    show (insertCandidate c (sortCandidates rest)).Pairwise _
    have hgen : ∀ (s : List (Nat × Nat × ℚ)), s.Pairwise (fun a b => b.2.2 ≤ a.2.2) →
        (insertCandidate c s).Pairwise (fun a b => b.2.2 ≤ a.2.2) := by
      intro s
      induction s with
      | nil => intro _; simp [insertCandidate]
      | cons d srest ihs =>
        intro hp
        rw [List.pairwise_cons] at hp
        unfold insertCandidate
        split
        · rename_i hle
          rw [List.pairwise_cons]
          refine ⟨?_, ihs hp.2⟩
          intro x hx
          have := (insertCandidate_perm c srest).mem_iff.1 hx
          rcases List.mem_cons.1 this with hx1 | hx1
          · rw [hx1]; exact hle
          · exact hp.1 x hx1
        · rename_i hgt
          rw [List.pairwise_cons]
          constructor
          · intro x hx
            rcases List.mem_cons.1 hx with hx1 | hx1
            · rw [hx1]; exact le_of_not_le hgt
            · exact le_trans (hp.1 x hx1) (le_of_not_le hgt)
          · rw [List.pairwise_cons]
            exact hp
    exact hgen (sortCandidates rest) ih

/-- The greedy loop never changes the key list of the tracks dict. -/
theorem greedy_keys (dets : List BBox) (fc : Nat) :
    ∀ (cands : List (Nat × Nat × ℚ)) (st : GreedySt),
      ((cands.foldl (greedy_step dets fc) st).tracks).map Prod.fst
        = st.tracks.map Prod.fst := by
  intro cands
  induction cands with
  | nil => intro st; rfl
  | cons c rest ih =>
    intro st
    rw [List.foldl_cons, ih]
    unfold greedy_step
    split
    · split
      · simp [List.map_map]
      · rfl
    · rfl

/-- `matched_tracks` only grows along the greedy loop. -/
theorem greedy_matched_mono (dets : List BBox) (fc : Nat) :
    ∀ (cands : List (Nat × Nat × ℚ)) (st : GreedySt) (x : Nat),
      x ∈ st.matched_tracks → x ∈ (cands.foldl (greedy_step dets fc) st).matched_tracks := by
  intro cands
  induction cands with
  | nil => intro st x hx; exact hx
  | cons c rest ih =>
    intro st x hx
    rw [List.foldl_cons]
    apply ih
    unfold greedy_step
    split
    · split
      · exact List.mem_cons_of_mem _ hx
      · exact hx
    · exact hx

/-- A track id never matched by the greedy loop keeps its entry unchanged. -/
theorem greedy_unmatched_lookup (dets : List BBox) (fc : Nat) :
    ∀ (cands : List (Nat × Nat × ℚ)) (st : GreedySt) (id : Nat),
      id ∉ (cands.foldl (greedy_step dets fc) st).matched_tracks →
      lookupTrack (cands.foldl (greedy_step dets fc) st).tracks id
        = lookupTrack st.tracks id := by
  intro cands
  induction cands with
  | nil => intro st id h; rfl
  | cons c rest ih =>
    intro st id h
    rw [List.foldl_cons] at h ⊢
    rw [ih _ _ h]
    by_cases hcond : c.1 ∉ st.matched_detections ∧ c.2.1 ∉ st.matched_tracks
    · cases hg : dets.get? c.1 with
      | some bbox =>
        have hgs : greedy_step dets fc st c
            = ⟨st.tracks.map (fun p => (p.1, if p.1 = c.2.1 then ⟨bbox, 0, fc⟩ else p.2)),
               c.2.1 :: st.matched_tracks, c.1 :: st.matched_detections,
               (c.1, c.2.1) :: st.assigned⟩ := by
          unfold greedy_step
          rw [if_pos hcond, hg]
        have hid : id ≠ c.2.1 := by
          intro he
          apply h
          apply greedy_matched_mono dets fc rest (greedy_step dets fc st c) id
          rw [hgs, he]
          exact List.mem_cons_self _ _
        rw [hgs]
        rw [lookupTrack_map_val st.tracks
          (fun p => if p.1 = c.2.1 then ⟨bbox, 0, fc⟩ else p.2) id]
        unfold lookupTrack
        cases hf : st.tracks.find? (fun p => p.1 == id) with
        | none => rfl
        | some p0 =>
          have hk := find?_key_eq hf
          simp [hk, hid]
      | none =>
        have hgs : greedy_step dets fc st c = st := by
          unfold greedy_step
          rw [if_pos hcond, hg]
        rw [hgs]
    · have hgs : greedy_step dets fc st c = st := by
        unfold greedy_step
        rw [if_neg hcond]
      rw [hgs]

/-- Every assignment made by the greedy loop was in the initial state or names
the track id of some candidate. -/
theorem greedy_assigned_src (dets : List BBox) (fc : Nat) :
    ∀ (cands : List (Nat × Nat × ℚ)) (st : GreedySt) (x : Nat × Nat),
      x ∈ (cands.foldl (greedy_step dets fc) st).assigned →
      x ∈ st.assigned ∨ x.2 ∈ cands.map (fun c => c.2.1) := by
  intro cands
  induction cands with
  | nil => intro st x hx; exact Or.inl hx
  | cons c rest ih =>
    intro st x hx
    rw [List.foldl_cons] at hx
    rcases ih _ x hx with h1 | h1
    · unfold greedy_step at h1
      split at h1
      · split at h1
        · simp only [List.mem_cons] at h1
          rcases h1 with h1 | h1
          · right
            rw [h1]
            simp
          · exact Or.inl h1
        · exact Or.inl h1
      · exact Or.inl h1
    · right
      simp only [List.map_cons, List.mem_cons]
      exact Or.inr h1

/-- The track-id component of every candidate is a key of the tracks dict. -/
theorem match_candidates_tid (sqrtA : ℚ → ℚ) (thr : ℚ) (tracks : List (Nat × Track))
    (dets : List BBox) (c : Nat × Nat × ℚ)
    (h : c ∈ match_candidates sqrtA thr tracks dets) : c.2.1 ∈ tracks.map Prod.fst := by
  unfold match_candidates at h
  rw [List.mem_flatten] at h
  rcases h with ⟨inner, hinner, hc⟩
  rw [List.mem_map] at hinner
  rcases hinner with ⟨idet, hidet, hin⟩
  rw [← hin] at hc
  rw [List.mem_filterMap] at hc
  rcases hc with ⟨ttr, httr, heq⟩
  dsimp only at heq
  split at heq
  · rw [Option.some.injEq] at heq
    rw [← heq]
    exact List.mem_map.2 ⟨ttr, httr, rfl⟩
  · exact absurd heq (by simp)

/-- Mapping values only does not change the key list. -/
theorem keys_map_val (l : List (Nat × Track)) (f : Nat × Track → Track) :
    (l.map (fun p => (p.1, f p))).map Prod.fst = l.map Prod.fst := by
  rw [List.map_map]
  rfl

/-- `update` on an empty detection list: age every track, then clean up. -/
theorem update_eq_empty (sqrtA : ℚ → ℚ) (t : PersonTracker) (dets : List BBox)
    (h : dets.isEmpty = true) :
    update sqrtA t dets
      = ({ t with
            tracks := (t.tracks.map (fun p =>
              (p.1, { p.2 with disappeared := p.2.disappeared + 1 }))).filter
                (fun p => ¬ p.2.disappeared > t.max_disappeared),
            frame_count := t.frame_count + 1 }, []) := by
  unfold update
  rw [if_pos h]

/-- `update` with no existing tracks: assign fresh sequential ids. -/
theorem update_eq_newonly (sqrtA : ℚ → ℚ) (t : PersonTracker) (dets : List BBox)
    (h1 : dets.isEmpty = false) (h2 : t.tracks.isEmpty = true) :
    update sqrtA t dets
      = ({ t with
            tracks := t.tracks
              ++ (create_new_tracks (t.frame_count + 1) [] dets.enum t.next_id).1,
            next_id := (create_new_tracks (t.frame_count + 1) [] dets.enum t.next_id).2.2,
            frame_count := t.frame_count + 1 },
         dets.enum.map (fun idet => (idet.2,
           lookupAssign (create_new_tracks (t.frame_count + 1) [] dets.enum t.next_id).2.1
             idet.1))) := by
  unfold update
  rw [if_neg (by simp [h1]), if_pos h2]

/-- `update` in the general case: greedy matching, new tracks, aging of every
unmatched id (including the freshly created tracks), cleanup. -/
theorem update_eq_main (sqrtA : ℚ → ℚ) (t : PersonTracker) (dets : List BBox)
    (h1 : dets.isEmpty = false) (h2 : t.tracks.isEmpty = false) :
    update sqrtA t dets
      = ({ t with
            tracks := (((greedyResult sqrtA t dets).tracks
                ++ (create_new_tracks (t.frame_count + 1)
                     (greedyResult sqrtA t dets).matched_detections dets.enum t.next_id).1).map
              (fun p => (p.1, if p.1 ∈ (greedyResult sqrtA t dets).matched_tracks then p.2
                    else { p.2 with disappeared := p.2.disappeared + 1 }))).filter
                (fun p => ¬ p.2.disappeared > t.max_disappeared),
            next_id := (create_new_tracks (t.frame_count + 1)
              (greedyResult sqrtA t dets).matched_detections dets.enum t.next_id).2.2,
            frame_count := t.frame_count + 1 },
         dets.enum.map (fun idet => (idet.2,
           lookupAssign ((greedyResult sqrtA t dets).assigned
             ++ (create_new_tracks (t.frame_count + 1)
                  (greedyResult sqrtA t dets).matched_detections dets.enum t.next_id).2.1)
             idet.1))) := by
  unfold update
  rw [if_neg (by simp [h1]), if_neg (by simp [h2])]

/-- `update` keeps `max_disappeared`. -/
theorem update_max_disappeared (sqrtA : ℚ → ℚ) (t : PersonTracker) (dets : List BBox) :
    (update sqrtA t dets).1.max_disappeared = t.max_disappeared := by
  unfold update
  split
  · rfl
  · split
    · rfl
    · rfl

/-- The id counter never decreases across an `update`. -/
theorem update_next_id_mono (sqrtA : ℚ → ℚ) (t : PersonTracker) (dets : List BBox) :
    t.next_id ≤ (update sqrtA t dets).1.next_id := by
  unfold update
  split
  · exact le_refl _
  · split
    · exact cnt_next_le _ _ _ _
    · exact cnt_next_le _ _ _ _

/-- The key list of the greedy pass equals the tracker's key list. -/
theorem greedyResult_keys (sqrtA : ℚ → ℚ) (t : PersonTracker) (dets : List BBox) :
    (greedyResult sqrtA t dets).tracks.map Prod.fst = t.tracks.map Prod.fst := by
  unfold greedyResult
  exact greedy_keys dets (t.frame_count + 1) _ _

/-- `update` preserves tracker well-formedness. -/
theorem update_wf (sqrtA : ℚ → ℚ) (t : PersonTracker) (dets : List BBox)
    (h : TrackerWF t) : TrackerWF (update sqrtA t dets).1 := by
  obtain ⟨hnd, hlt⟩ := h
  cases hd : dets.isEmpty with
  | true =>
    rw [update_eq_empty sqrtA t dets hd]
    constructor
    · refine List.Nodup.sublist (List.Sublist.map Prod.fst (List.filter_sublist _)) ?_
      rw [keys_map_val]
      exact hnd
    · intro p hp
      have hp2 := (List.mem_filter.1 hp).1
      rw [List.mem_map] at hp2
      rcases hp2 with ⟨orig, ho, hor⟩
      have : p.1 = orig.1 := by rw [← hor]
      rw [this]
      exact hlt orig ho
  | false =>
    cases ht : t.tracks.isEmpty with
    | true =>
      have htr : t.tracks = [] := List.isEmpty_iff.1 ht
      rw [update_eq_newonly sqrtA t dets hd ht]
      constructor
      · rw [htr]
        simpa using cnt_keys_nodup (t.frame_count + 1) [] dets.enum t.next_id
      · intro p hp
        rw [htr] at hp
        simp only [List.nil_append] at hp
        exact (cnt_new_keys (t.frame_count + 1) [] dets.enum t.next_id p hp).2
    | false =>
      rw [update_eq_main sqrtA t dets hd ht]
      constructor
      · refine List.Nodup.sublist (List.Sublist.map Prod.fst (List.filter_sublist _)) ?_
        rw [keys_map_val, List.map_append, greedyResult_keys]
        apply List.Nodup.append hnd
          (cnt_keys_nodup (t.frame_count + 1) _ dets.enum t.next_id)
        intro a ha hb
        rw [List.mem_map] at ha hb
        rcases ha with ⟨pa, hpa, hka⟩
        rcases hb with ⟨pb, hpb, hkb⟩
        have h1 : a < t.next_id := hka ▸ hlt pa hpa
        have h2 : t.next_id ≤ a :=
          hkb ▸ (cnt_new_keys (t.frame_count + 1) _ dets.enum t.next_id pb hpb).1
        omega
      · intro p hp
        have hp2 := (List.mem_filter.1 hp).1
        rw [List.mem_map] at hp2
        rcases hp2 with ⟨orig, ho, hor⟩
        have hpk : p.1 = orig.1 := by rw [← hor]
        rw [List.mem_append] at ho
        rw [hpk]
        rcases ho with ho | ho
        · have : orig.1 ∈ (greedyResult sqrtA t dets).tracks.map Prod.fst :=
            List.mem_map.2 ⟨orig, ho, rfl⟩
          rw [greedyResult_keys] at this
          rw [List.mem_map] at this
          rcases this with ⟨q, hq, hqk⟩
          calc orig.1 = q.1 := hqk.symm
            _ < t.next_id := hlt q hq
            _ ≤ _ := cnt_next_le (t.frame_count + 1) _ dets.enum t.next_id
        · exact (cnt_new_keys (t.frame_count + 1) _ dets.enum t.next_id orig ho).2

/-- Keys after greedy matching plus new-track creation are distinct. -/
theorem main_keys_nodup (sqrtA : ℚ → ℚ) (t : PersonTracker) (dets : List BBox)
    (hnd : (t.tracks.map Prod.fst).Nodup) (hlt : ∀ p ∈ t.tracks, p.1 < t.next_id) :
    (((greedyResult sqrtA t dets).tracks
      ++ (create_new_tracks (t.frame_count + 1)
           (greedyResult sqrtA t dets).matched_detections dets.enum t.next_id).1).map
        Prod.fst).Nodup := by
  rw [List.map_append, greedyResult_keys]
  apply List.Nodup.append hnd
    (cnt_keys_nodup (t.frame_count + 1) _ dets.enum t.next_id)
  intro a ha hb
  rw [List.mem_map] at ha hb
  rcases ha with ⟨pa, hpa, hka⟩
  rcases hb with ⟨pb, hpb, hkb⟩
  have h1 : a < t.next_id := hka ▸ hlt pa hpa
  have h2 : t.next_id ≤ a :=
    hkb ▸ (cnt_new_keys (t.frame_count + 1) _ dets.enum t.next_id pb hpb).1
  omega

/-- One `update` call on a track left unmatched by its greedy pass: the
`disappeared` counter is incremented and the track survives exactly when the
counter stays within `max_disappeared`; bbox and `last_seen` are untouched. -/
theorem update_unmatched_step (sqrtA : ℚ → ℚ) (t : PersonTracker) (dets : List BBox)
    (id : Nat) (tr : Track)
    (hwf : TrackerWF t) (hfind : lookupTrack t.tracks id = some tr)
    (hunm : id ∉ (greedyResult sqrtA t dets).matched_tracks) :
    lookupTrack (update sqrtA t dets).1.tracks id
      = if tr.disappeared + 1 > t.max_disappeared then none
        else some { tr with disappeared := tr.disappeared + 1 } := by
  obtain ⟨hnd, hlt⟩ := hwf
  cases hd : dets.isEmpty with
  | true =>
    rw [update_eq_empty sqrtA t dets hd]
    have haged : lookupTrack (t.tracks.map (fun p =>
        (p.1, { p.2 with disappeared := p.2.disappeared + 1 }))) id
        = some { tr with disappeared := tr.disappeared + 1 } := by
      rw [lookupTrack_map_val]
      unfold lookupTrack at hfind
      cases hf : t.tracks.find? (fun p => p.1 == id) with
      | none => rw [hf] at hfind; simp at hfind
      | some p0 =>
        rw [hf] at hfind
        have hv : p0.2 = tr := by simpa using hfind
        simp [hv]
    have hndm : ((t.tracks.map (fun p =>
        (p.1, { p.2 with disappeared := p.2.disappeared + 1 }))).map Prod.fst).Nodup := by
      rw [keys_map_val]
      exact hnd
    rw [lookupTrack_filter _ _ _ _ hndm haged]
    by_cases hgt : tr.disappeared + 1 > t.max_disappeared
    · rw [if_pos hgt]
      simp [hgt]
    · rw [if_neg hgt]
      simp [hgt]
  | false =>
    cases ht : t.tracks.isEmpty with
    | true =>
      have he : t.tracks = [] := List.isEmpty_iff.1 ht
      rw [he] at hfind
      simp [lookupTrack] at hfind
    | false =>
      rw [update_eq_main sqrtA t dets hd ht]
      have hg1 : lookupTrack (greedyResult sqrtA t dets).tracks id = some tr := by
        have hlu := greedy_unmatched_lookup dets (t.frame_count + 1)
          (sortCandidates (match_candidates sqrtA t.iou_threshold t.tracks dets))
          ⟨t.tracks, [], [], []⟩ id hunm
        exact hlu.trans hfind
      have hg2 : lookupTrack ((greedyResult sqrtA t dets).tracks
          ++ (create_new_tracks (t.frame_count + 1)
               (greedyResult sqrtA t dets).matched_detections dets.enum t.next_id).1) id
          = some tr := by
        rw [lookupTrack_append, hg1]
        rfl
      have hg3 : lookupTrack ((((greedyResult sqrtA t dets).tracks
          ++ (create_new_tracks (t.frame_count + 1)
               (greedyResult sqrtA t dets).matched_detections dets.enum t.next_id).1)).map
            (fun p => (p.1, if p.1 ∈ (greedyResult sqrtA t dets).matched_tracks then p.2
                  else { p.2 with disappeared := p.2.disappeared + 1 }))) id
          = some { tr with disappeared := tr.disappeared + 1 } := by
        rw [lookupTrack_map_val]
        unfold lookupTrack at hg2
        cases hf : ((greedyResult sqrtA t dets).tracks
            ++ (create_new_tracks (t.frame_count + 1)
                 (greedyResult sqrtA t dets).matched_detections dets.enum t.next_id).1).find?
              (fun p => p.1 == id) with
        | none => rw [hf] at hg2; simp at hg2
        | some p0 =>
          rw [hf] at hg2
          have hv : p0.2 = tr := by simpa using hg2
          have hk := find?_key_eq hf
          simp [hk, hv, hunm]
      have hndm := main_keys_nodup sqrtA t dets hnd hlt
      have hndm2 : ((((greedyResult sqrtA t dets).tracks
          ++ (create_new_tracks (t.frame_count + 1)
               (greedyResult sqrtA t dets).matched_detections dets.enum t.next_id).1).map
            (fun p => (p.1, if p.1 ∈ (greedyResult sqrtA t dets).matched_tracks then p.2
                  else { p.2 with disappeared := p.2.disappeared + 1 }))).map Prod.fst).Nodup := by
        rw [keys_map_val]
        exact hndm
      rw [lookupTrack_filter _ _ _ _ hndm2 hg3]
      by_cases hgt : tr.disappeared + 1 > t.max_disappeared
      · rw [if_pos hgt]
        simp [hgt]
      · rw [if_neg hgt]
        simp [hgt]

/-- Aging across a run of updates in which the track is never matched:
the counter accumulates one per update, and the track is removed exactly when
the counter passes `max_disappeared`. -/
theorem run_unmatched_general (sqrtA : ℚ → ℚ) (id : Nat) :
    ∀ (inputs : List (List BBox)) (t : PersonTracker) (tr : Track),
      TrackerWF t → lookupTrack t.tracks id = some tr →
      unmatchedRun sqrtA id t inputs = true →
      (tr.disappeared + inputs.length ≤ t.max_disappeared →
        lookupTrack (runUpdates sqrtA t inputs).tracks id
          = some { tr with disappeared := tr.disappeared + inputs.length }) ∧
      (tr.disappeared + inputs.length = t.max_disappeared + 1 → inputs ≠ [] →
        lookupTrack (runUpdates sqrtA t inputs).tracks id = none) := by
  intro inputs
  induction inputs with
  | nil =>
    intro t tr hwf hfind hrun
    constructor
    · intro hle
      simpa using hfind
    · intro _ hne
      exact absurd rfl hne
  | cons d rest ih =>
    intro t tr hwf hfind hrun
    simp only [unmatchedRun, Bool.and_eq_true, decide_eq_true_eq] at hrun
    obtain ⟨hunm, hrest⟩ := hrun
    have hstep := update_unmatched_step sqrtA t d id tr hwf hfind hunm
    have hwf2 := update_wf sqrtA t d hwf
    have hmax2 := update_max_disappeared sqrtA t d
    constructor
    · intro hle
      have h1 : ¬ tr.disappeared + 1 > t.max_disappeared := by
        simp only [List.length_cons] at hle
        omega
      rw [if_neg h1] at hstep
      have hih := (ih (update sqrtA t d).1
        { tr with disappeared := tr.disappeared + 1 } hwf2 hstep hrest).1
      rw [hmax2] at hih
      have h2 : tr.disappeared + 1 + rest.length ≤ t.max_disappeared := by
        simp only [List.length_cons] at hle
        omega
      have h3 := hih h2
      simp only [runUpdates, List.length_cons]
      have harith : tr.disappeared + (rest.length + 1) = tr.disappeared + 1 + rest.length := by
        omega
      rw [harith]
      exact h3
    · intro heq hne
      rcases rest with _ | ⟨d2, rest2⟩
      · have h1 : tr.disappeared + 1 > t.max_disappeared := by
          simp only [List.length_cons, List.length_nil] at heq
          omega
        rw [if_pos h1] at hstep
        simpa only [runUpdates] using hstep
      · have h1 : ¬ tr.disappeared + 1 > t.max_disappeared := by
          simp only [List.length_cons] at heq
          omega
        rw [if_neg h1] at hstep
        have hih := (ih (update sqrtA t d).1
          { tr with disappeared := tr.disappeared + 1 } hwf2 hstep hrest).2
        rw [hmax2] at hih
        have h2 : tr.disappeared + 1 + (d2 :: rest2).length = t.max_disappeared + 1 := by
          simp only [List.length_cons] at heq ⊢
          omega
        have h3 := hih h2 (by simp)
        simpa only [runUpdates] using h3

/-- C3: a track whose disappeared counter is 0 and that then goes unmatched for
exactly `max_disappeared` (=15) consecutive updates is still retained (counter
15); after exactly `max_disappeared`+1 = 16 consecutive unmatched updates it is
removed.  The final conjunct shows an update called with an empty detection
list matches nothing, so such calls still age and clean up every existing
track and are covered by the `unmatchedRun` hypothesis. -/
theorem tracker_removal_timing (sqrtA : ℚ → ℚ) (t : PersonTracker) (id : Nat) (tr : Track)
    (inputs : List (List BBox))
    (hwf : TrackerWF t) (hfind : lookupTrack t.tracks id = some tr)
    (h0 : tr.disappeared = 0) (hmax : t.max_disappeared = 15)
    (hrun : unmatchedRun sqrtA id t inputs = true) :
    (inputs.length = 15 →
      lookupTrack (runUpdates sqrtA t inputs).tracks id
        = some { tr with disappeared := 15 }) ∧
    (inputs.length = 16 → lookupTrack (runUpdates sqrtA t inputs).tracks id = none) ∧
    (∀ t2 : PersonTracker, (greedyResult sqrtA t2 []).matched_tracks = []) := by
  have hgen := run_unmatched_general sqrtA id inputs t tr hwf hfind hrun
  refine ⟨?_, ?_, ?_⟩
  · intro hlen
    have hres := hgen.1 (by omega)
    rw [h0, hlen] at hres
    simpa using hres
  · intro hlen
    exact hgen.2 (by omega) (by intro hc; rw [hc] at hlen; simp at hlen)
  · intro t2
    rfl

/-- Witness for `tracker_removal_timing`: one track, sixteen empty updates. -/
theorem tracker_removal_timing_witness :
    lookupTrack (runUpdates (fun _ => 0)
      ⟨3 / 10, 15, [(1, ⟨⟨0, 0, 10, 10⟩, 0, 0⟩)], 2, 0⟩
      (List.replicate 16 [])).tracks 1 = none :=
  (tracker_removal_timing (fun _ => 0)
    ⟨3 / 10, 15, [(1, ⟨⟨0, 0, 10, 10⟩, 0, 0⟩)], 2, 0⟩ 1
    ⟨⟨0, 0, 10, 10⟩, 0, 0⟩ (List.replicate 16 []) (by decide) (by decide) rfl rfl
    (by decide)).2.1 (by decide)

/-- With no matched indices, the new-track assignment list pairs each
enumeration index with a consecutive fresh id. -/
theorem cnt_nomatch_assigns (fc : Nat) :
    ∀ (l : List BBox) (k next : Nat),
      (create_new_tracks fc [] (l.enumFrom k) next).2.1
        = (List.range' k l.length).zip (List.range' next l.length) := by
  intro l
  induction l with
  | nil => intro k next; rfl
  | cons b rest ih =>
    intro k next
    simp only [List.enumFrom_cons, List.length_cons, List.range'_succ, List.zip_cons_cons]
    unfold create_new_tracks
    rw [if_neg (by simp)]
    simp only [ih (k + 1) (next + 1)]

/-- Looking up index `k + i` in the zipped ranges yields id `next + i`. -/
theorem lookupAssign_zip_ranges :
    ∀ (n k next i : Nat), i < n →
      lookupAssign ((List.range' k n).zip (List.range' next n)) (k + i) = some (next + i) := by
  intro n
  induction n with
  | zero => intro k next i h; omega
  | succ n ih =>
    intro k next i h
    rw [List.range'_succ, List.range'_succ, List.zip_cons_cons]
    cases i with
    | zero =>
      unfold lookupAssign
      rw [List.find?_cons_of_pos _ (by simp)]
      simp
    | succ j =>
      unfold lookupAssign
      rw [List.find?_cons_of_neg _ (by simp)]
      have hih := ih (k + 1) (next + 1) j (by omega)
      unfold lookupAssign at hih
      have he1 : k + (j + 1) = k + 1 + j := by omega
      have he2 : next + (j + 1) = next + 1 + j := by omega
      rw [he1, he2]
      exact hih

/-- An `update` on an empty track dict assigns the consecutive fresh ids
`next_id, next_id+1, …` to the detections in input order. -/
theorem update_newonly_ids (sqrtA : ℚ → ℚ) (t : PersonTracker) (dets : List BBox)
    (h2 : t.tracks = []) :
    (update sqrtA t dets).2.map Prod.snd
      = (List.range' t.next_id dets.length).map some := by
  cases hd : dets.isEmpty with
  | true =>
    rw [update_eq_empty sqrtA t dets hd]
    have : dets = [] := List.isEmpty_iff.1 hd
    rw [this]
    rfl
  | false =>
    rw [update_eq_newonly sqrtA t dets hd (by rw [h2]; rfl)]
    have hassigns := cnt_nomatch_assigns (t.frame_count + 1) dets 0 t.next_id
    rw [show dets.enumFrom 0 = dets.enum from rfl] at hassigns
    rw [List.map_map, hassigns]
    have hfun : (Prod.snd ∘ fun idet : Nat × BBox =>
        (idet.2, lookupAssign
          ((List.range' 0 dets.length).zip (List.range' t.next_id dets.length)) idet.1))
        = (fun i => lookupAssign
            ((List.range' 0 dets.length).zip (List.range' t.next_id dets.length)) i)
          ∘ Prod.fst := rfl
    rw [hfun, ← List.map_map, List.enum_eq_zip_range,
      List.map_fst_zip _ _ (by simp)]
    apply List.ext_getElem
    · simp
    · intro m h1 h3
      rw [List.getElem_map, List.getElem_map, List.getElem_range, List.getElem_range']
      have hm : m < dets.length := by simpa using h1
      have hz := lookupAssign_zip_ranges dets.length 0 t.next_id m hm
      rw [Nat.zero_add] at hz
      rw [hz]
      congr 1
      omega

/-- Every id in an `update`'s output is below the resulting id counter. -/
theorem update_output_ids_lt (sqrtA : ℚ → ℚ) (t : PersonTracker) (dets : List BBox)
    (hwf : TrackerWF t) :
    ∀ id : Nat, some id ∈ (update sqrtA t dets).2.map Prod.snd →
      id < (update sqrtA t dets).1.next_id := by
  intro id hid
  rw [List.mem_map] at hid
  rcases hid with ⟨y, hy, hysnd⟩
  cases hd : dets.isEmpty with
  | true =>
    rw [update_eq_empty sqrtA t dets hd] at hy
    simp at hy
  | false =>
    cases ht : t.tracks.isEmpty with
    | true =>
      rw [update_eq_newonly sqrtA t dets hd ht] at hy ⊢
      show id < (create_new_tracks (t.frame_count + 1) [] dets.enum t.next_id).2.2
      rw [List.mem_map] at hy
      rcases hy with ⟨idet, hidet, hyeq⟩
      have hla : lookupAssign
          (create_new_tracks (t.frame_count + 1) [] dets.enum t.next_id).2.1 idet.1
          = some id := by
        rw [← hysnd, ← hyeq]
      unfold lookupAssign at hla
      rw [Option.map_eq_some'] at hla
      rcases hla with ⟨p, hp, hpid⟩
      have hmem := List.mem_of_find?_eq_some hp
      have := (cnt_assign_ids (t.frame_count + 1) [] dets.enum t.next_id p hmem).2
      omega
    | false =>
      rw [update_eq_main sqrtA t dets hd ht] at hy ⊢
      show id < (create_new_tracks (t.frame_count + 1)
        (greedyResult sqrtA t dets).matched_detections dets.enum t.next_id).2.2
      rw [List.mem_map] at hy
      rcases hy with ⟨idet, hidet, hyeq⟩
      have hla : lookupAssign
          ((greedyResult sqrtA t dets).assigned
            ++ (create_new_tracks (t.frame_count + 1)
                 (greedyResult sqrtA t dets).matched_detections dets.enum t.next_id).2.1)
          idet.1 = some id := by
        rw [← hysnd, ← hyeq]
      unfold lookupAssign at hla
      rw [Option.map_eq_some'] at hla
      rcases hla with ⟨p, hp, hpid⟩
      have hmem := List.mem_of_find?_eq_some hp
      rw [List.mem_append] at hmem
      rcases hmem with hmem | hmem
      · have hsrc := greedy_assigned_src dets (t.frame_count + 1)
          (sortCandidates (match_candidates sqrtA t.iou_threshold t.tracks dets))
          ⟨t.tracks, [], [], []⟩ p hmem
        rcases hsrc with hsrc | hsrc
        · simp at hsrc
        · rw [List.mem_map] at hsrc
          rcases hsrc with ⟨c, hc, hcp⟩
          rw [mem_sortCandidates] at hc
          have hkey := match_candidates_tid sqrtA t.iou_threshold t.tracks dets c hc
          rw [List.mem_map] at hkey
          rcases hkey with ⟨q, hq, hqk⟩
          have h1 : q.1 < t.next_id := hwf.2 q hq
          have h2 := cnt_next_le (t.frame_count + 1)
            (greedyResult sqrtA t dets).matched_detections dets.enum t.next_id
          omega
      · have := (cnt_assign_ids (t.frame_count + 1)
          (greedyResult sqrtA t dets).matched_detections dets.enum t.next_id p hmem).2
        omega

/-- C4: (i) the initial tracker is well-formed and `update` preserves
well-formedness; (ii) the id counter never decreases; (iii) an update on an
empty track set assigns the `|D|` detections the distinct, strictly increasing
ids `next_id, …, next_id+|D|−1` in input order; (iv) every id in an update's
output is below the resulting counter; (v) every id newly assigned to an
unmatched detection is at least the counter before the update.  Together these
give the claim: an id newly assigned at any later update is at least the
then-current counter, which exceeds every id ever assigned before — including
ids of already-removed tracks — so track ids are never reused. -/
theorem tracker_id_assignment (sqrtA : ℚ → ℚ) (t : PersonTracker) (dets : List BBox) :
    TrackerWF (initTracker (3 / 10) 15) ∧
    t.next_id ≤ (update sqrtA t dets).1.next_id ∧
    (t.tracks = [] →
      (update sqrtA t dets).2.map Prod.snd
        = (List.range' t.next_id dets.length).map some) ∧
    (TrackerWF t → TrackerWF (update sqrtA t dets).1) ∧
    (TrackerWF t → ∀ id : Nat, some id ∈ (update sqrtA t dets).2.map Prod.snd →
      id < (update sqrtA t dets).1.next_id) ∧
    (∀ p ∈ newAssigns sqrtA t dets, t.next_id ≤ p.2) := by
  refine ⟨⟨List.nodup_nil, by intro p hp; simp [initTracker] at hp⟩,
    update_next_id_mono sqrtA t dets,
    fun h2 => update_newonly_ids sqrtA t dets h2,
    fun hwf => update_wf sqrtA t dets hwf,
    fun hwf => update_output_ids_lt sqrtA t dets hwf,
    fun p hp => (cnt_assign_ids _ _ _ _ p hp).1⟩

/-- Witness for `tracker_id_assignment`: a fresh tracker and two detections
get ids 1 and 2. -/
theorem tracker_id_assignment_witness :
    (initTracker (3 / 10) 15).tracks = [] ∧
    (update (fun _ => 0) (initTracker (3 / 10) 15)
      [⟨0, 0, 10, 10⟩, ⟨20, 20, 30, 30⟩]).2.map Prod.snd = [some 1, some 2] := by
  have h := (tracker_id_assignment (fun _ => 0) (initTracker (3 / 10) 15)
    [⟨0, 0, 10, 10⟩, ⟨20, 20, 30, 30⟩]).2.2.1 rfl
  exact ⟨rfl, by rw [h]; rfl⟩

/-! ### Camera actor (C6) -/

/-- A frame never submitted and not currently buffered or recorded can never
be processed, whatever interleaving follows. -/
theorem cam_never_processed (f1 : Nat) :
    ∀ (events : List CamEvent) (st : CameraSlot),
      f1 ∉ st.frame_queue.map FrameData.frame → f1 ∉ st.processed →
      (∀ e ∈ events, submitsFrame f1 e = false) →
      f1 ∉ (camRun st events).processed := by
  intro events
  induction events with
  | nil => intro st hq hp _; exact hp
  | cons e rest ih =>
    intro st hq hp hsub
    have hse : submitsFrame f1 e = false := hsub e (List.mem_cons_self _ _)
    have hrest : ∀ x ∈ rest, submitsFrame f1 x = false :=
      fun x hx => hsub x (List.mem_cons_of_mem _ hx)
    show f1 ∉ (camRun (camStep st e) rest).processed
    cases e with
    | submit f w h ts =>
      apply ih
      · simp only [camStep, submit_frame, List.map_cons, List.map_nil, List.mem_singleton]
        simp only [submitsFrame, beq_eq_false_iff_ne, ne_eq] at hse
        exact fun hc => hse hc.symm
      · exact hp
      · exact hrest
    | consume =>
      apply ih
      · show f1 ∉ (loop_iteration st).frame_queue.map FrameData.frame
        unfold loop_iteration
        cases hfq : st.frame_queue with
        | nil => exact hq
        | cons fd frest =>
          show f1 ∉ frest.map FrameData.frame
          rw [hfq] at hq
          simp only [List.map_cons, List.mem_cons, not_or] at hq
          exact hq.2
      · show f1 ∉ (loop_iteration st).processed
        unfold loop_iteration
        cases hfq : st.frame_queue with
        | nil => exact hp
        | cons fd frest =>
          show f1 ∉ fd.frame :: st.processed
          rw [hfq] at hq
          simp only [List.map_cons, List.mem_cons, not_or] at hq
          simp only [List.mem_cons, not_or]
          exact ⟨fun hc => hq.1 hc, hp⟩
      · exact hrest

/-- C6: (i) a `submit` replaces the whole pending queue with exactly the new
frame, so two submits with no intervening consumption leave only the second
buffered; (ii) the pending slot holds at most one frame at all times; (iii)
after two back-to-back submits, the first frame — unless it is resubmitted
later or equals the second — can never be processed. -/
theorem camera_single_slot (f1 w1 h1 ts1 f2 w2 h2 ts2 : Nat) (st : CameraSlot)
    (events : List CamEvent) :
    (submit_frame st f1 w1 h1 ts1).frame_queue = [⟨f1, w1, h1, ts1⟩] ∧
    (submit_frame (submit_frame st f1 w1 h1 ts1) f2 w2 h2 ts2).frame_queue
      = [⟨f2, w2, h2, ts2⟩] ∧
    (st.frame_queue.length ≤ 1 → (camRun st events).frame_queue.length ≤ 1) ∧
    (f1 ≠ f2 → f1 ∉ st.processed →
      (∀ e ∈ events, submitsFrame f1 e = false) →
      f1 ∉ (camRun (submit_frame (submit_frame st f1 w1 h1 ts1) f2 w2 h2 ts2)
        events).processed) := by
  refine ⟨rfl, rfl, ?_, ?_⟩
  · intro hlen
    induction events generalizing st with
    | nil => exact hlen
    | cons e rest ih =>
      show (camRun (camStep st e) rest).frame_queue.length ≤ 1
      apply ih
      cases e with
      | submit f w h ts => simp [camStep, submit_frame]
      | consume =>
        show (loop_iteration st).frame_queue.length ≤ 1
        unfold loop_iteration
        cases hfq : st.frame_queue with
        | nil => exact hlen
        | cons fd frest =>
          show frest.length ≤ 1
          rw [hfq] at hlen
          simp only [List.length_cons] at hlen
          omega
  · intro hne hp hsub
    apply cam_never_processed f1 events
    · simp only [submit_frame, List.map_cons, List.map_nil]
      simp [hne]
    · exact hp
    · exact hsub

/-- Witness for `camera_single_slot`: two submits then one consume; frame 1 is
never processed, only frame 2. -/
theorem camera_single_slot_witness :
    (1 : Nat) ≠ 2 ∧
    (1 : Nat) ∉ (camRun (submit_frame (submit_frame initSlot 1 640 480 0) 2 640 480 1)
      [CamEvent.consume]).processed := by
  refine ⟨by decide, ?_⟩
  apply (camera_single_slot 1 640 480 0 2 640 480 1 initSlot [CamEvent.consume]).2.2.2
    (by decide) (by decide)
  intro e he
  rw [List.mem_singleton] at he
  rw [he]
  rfl

/-! ### Fan-out executor (C7) -/

/-- Lookup of a staged camera in the mapped result list. -/
theorem lookupResult_map (q : List (Nat × FrameData)) (g : Nat × FrameData → Nat × Stats)
    (cid : Nat) (fd : FrameData) (hnd : (q.map Prod.fst).Nodup)
    (hmem : (cid, fd) ∈ q) :
    lookupResult (q.map (fun p => (p.1, g p))) cid = some (g (cid, fd)) := by
  induction q with
  | nil => simp at hmem
  | cons p rest ih =>
    simp only [List.map_cons, List.nodup_cons] at hnd
    rcases List.mem_cons.1 hmem with hm | hm
    · unfold lookupResult
      rw [List.map_cons, List.find?_cons_of_pos _ (by rw [← hm]; simp)]
      simp [← hm]
    · have hcidmem : cid ∈ rest.map Prod.fst := List.mem_map.2 ⟨(cid, fd), hm, rfl⟩
      have hne : p.1 ≠ cid := fun he => hnd.1 (he ▸ hcidmem)
      unfold lookupResult
      rw [List.map_cons, List.find?_cons_of_neg _ (by simp [hne])]
      exact ih hnd.2 hm

/-- C7: a drain clears the staged set; the result set is exactly one
processing attempt per staged camera (no retries), so its key set equals the
staged key set; each camera's entry is its own attempt's outcome, and a camera
whose processing raised gets its original frame with zeroed stats while the
other cameras are unaffected. -/
theorem fanout_drain_spec (process_frame : Nat → Nat → Nat → Except String (Nat × Stats))
    (q : List (Nat × FrameData)) :
    (process_pending_frames process_frame q).2 = [] ∧
    (process_pending_frames process_frame q).1
      = q.map (fun p => (p.1,
          process_frame_parallel process_frame p.1 p.2.frame p.2.width p.2.height)) ∧
    (process_pending_frames process_frame q).1.map Prod.fst = q.map Prod.fst ∧
    (∀ cid fd, (q.map Prod.fst).Nodup → (cid, fd) ∈ q →
      lookupResult (process_pending_frames process_frame q).1 cid
        = some (process_frame_parallel process_frame cid fd.frame fd.width fd.height)) ∧
    (∀ cid fd msg, (q.map Prod.fst).Nodup → (cid, fd) ∈ q →
      process_frame fd.frame fd.width fd.height = Except.error msg →
      lookupResult (process_pending_frames process_frame q).1 cid
        = some (fd.frame, ⟨0, 0, 0, 0⟩)) := by
  have h2 : (process_pending_frames process_frame q).1
      = q.map (fun p => (p.1,
          process_frame_parallel process_frame p.1 p.2.frame p.2.width p.2.height)) := by
    unfold process_pending_frames
    split
    · rename_i hq
      rw [List.isEmpty_iff.1 hq]
      rfl
    · rfl
  have h1 : (process_pending_frames process_frame q).2 = [] := by
    unfold process_pending_frames
    split
    · rename_i hq
      exact List.isEmpty_iff.1 hq
    · rfl
  refine ⟨h1, h2, ?_, ?_, ?_⟩
  · rw [h2, List.map_map]
    rfl
  · intro cid fd hnd hmem
    rw [h2]
    exact lookupResult_map q _ cid fd hnd hmem
  · intro cid fd msg hnd hmem herr
    rw [h2, lookupResult_map q _ cid fd hnd hmem]
    unfold process_frame_parallel
    rw [herr]

/-- Witness for `fanout_drain_spec`: two staged cameras, camera 2's processing
raises, its entry is the original frame with zeroed stats. -/
theorem fanout_drain_spec_witness :
    lookupResult (process_pending_frames
      (fun f _ _ => if f = 2 then Except.error "boom" else Except.ok (f + 100, ⟨1, 0, 0, 1⟩))
      [(1, ⟨1, 640, 480, 0⟩), (2, ⟨2, 640, 480, 0⟩)]).1 2
      = some (2, ⟨0, 0, 0, 0⟩) :=
  (fanout_drain_spec
    (fun f _ _ => if f = 2 then Except.error "boom" else Except.ok (f + 100, ⟨1, 0, 0, 1⟩))
    [(1, ⟨1, 640, 480, 0⟩), (2, ⟨2, 640, 480, 0⟩)]).2.2.2.2 2 ⟨2, 640, 480, 0⟩ "boom"
    (by decide) (by decide) rfl

/-! ### Recording stop (C9) -/

/-- A present key with duplicate-free keys is found with its value. -/
theorem rec_find?_of_mem (l : List (String × RecordingInfo)) (id : String)
    (info : RecordingInfo) (hnd : (l.map Prod.fst).Nodup) (hmem : (id, info) ∈ l) :
    l.find? (fun p => p.1 == id) = some (id, info) := by
  induction l with
  | nil => simp at hmem
  | cons p rest ih =>
    simp only [List.map_cons, List.nodup_cons] at hnd
    rcases List.mem_cons.1 hmem with hm | hm
    · rw [List.find?_cons_of_pos _ (by rw [← hm]; simp)]
      rw [hm]
    · have hidmem : id ∈ rest.map Prod.fst := List.mem_map.2 ⟨(id, info), hm, rfl⟩
      have hne : p.1 ≠ id := fun he => hnd.1 (he ▸ hidmem)
      rw [List.find?_cons_of_neg _ (by simp [hne])]
      exact ih hnd.2 hm

/-- An absent key is not found. -/
theorem rec_find?_none (l : List (String × RecordingInfo)) (id : String)
    (h : id ∉ l.map Prod.fst) : l.find? (fun p => p.1 == id) = none := by
  induction l with
  | nil => rfl
  | cons p rest ih =>
    simp only [List.map_cons, List.mem_cons, not_or] at h
    rw [List.find?_cons_of_neg _ (by simp; exact fun hc => h.1 hc.symm)]
    exact ih h.2

/-- Deleting a key removes it from the key set. -/
theorem rec_key_filtered (l : List (String × RecordingInfo)) (id : String) :
    id ∉ (l.filter (fun q => ¬ q.1 == id)).map Prod.fst := by
  intro hc
  rw [List.mem_map] at hc
  rcases hc with ⟨p, hp, hk⟩
  have h2 := (List.mem_filter.1 hp).2
  simp [hk] at h2

/-- Stopping an id whose key is absent returns `None`. -/
theorem stop_recording_none (now : ℚ) (fileSize : String → Nat) (st2 : RecorderState)
    (id : String) (h : id ∉ st2.active_recordings.map Prod.fst) :
    (stop_recording now fileSize st2 id).1 = none := by
  unfold stop_recording
  rw [rec_find?_none _ _ h]

/-- C9: stopping an id that is not active returns `None` and leaves the state
unchanged; stopping an active recording returns the summary (with the
recording id, file path, duration, frame count and dimensions) exactly once
and removes the session, so an immediately repeated stop returns `None`. -/
theorem stop_recording_spec (now now2 : ℚ) (fileSize : String → Nat)
    (st : RecorderState) (id : String) :
    (id ∉ st.active_recordings.map Prod.fst →
      stop_recording now fileSize st id = (none, st)) ∧
    (∀ info, (st.active_recordings.map Prod.fst).Nodup →
      (id, info) ∈ st.active_recordings →
      (stop_recording now fileSize st id).1
        = some ⟨id, info.filepath, now - info.start_time, info.frame_count,
                info.width, info.height, info.fps, info.camera_ids,
                info.custom_name, fileSize info.filepath⟩ ∧
      id ∉ (stop_recording now fileSize st id).2.active_recordings.map Prod.fst ∧
      (stop_recording now2 fileSize (stop_recording now fileSize st id).2 id).1
        = none) := by
  constructor
  · intro habs
    unfold stop_recording
    rw [rec_find?_none _ _ habs]
  · intro info hnd hmem
    have hfind := rec_find?_of_mem st.active_recordings id info hnd hmem
    refine ⟨?_, ?_, ?_⟩
    · unfold stop_recording
      rw [hfind]
    · unfold stop_recording
      rw [hfind]
      exact rec_key_filtered _ _
    · have hsnd : (stop_recording now fileSize st id).2.active_recordings
          = st.active_recordings.filter (fun q => ¬ q.1 == id) := by
        unfold stop_recording
        rw [hfind]
      apply stop_recording_none
      rw [hsnd]
      exact rec_key_filtered _ _

/-- Witness for `stop_recording_spec`: one active recording, stopped twice. -/
theorem stop_recording_spec_witness :
    (stop_recording 5 (fun _ => 0)
      ⟨[("r1", ⟨"r1", "f.mp4", 2, 7, 640, 480, 20, none, none, true⟩)], ["r1"]⟩ "r1").1
      = some ⟨"r1", "f.mp4", 5 - 2, 7, 640, 480, 20, none, none, 0⟩ ∧
    (stop_recording 9 (fun _ => 0)
      (stop_recording 5 (fun _ => 0)
        ⟨[("r1", ⟨"r1", "f.mp4", 2, 7, 640, 480, 20, none, none, true⟩)], ["r1"]⟩
        "r1").2 "r1").1 = none := by
  have h := (stop_recording_spec 5 9 (fun _ => 0)
    ⟨[("r1", ⟨"r1", "f.mp4", 2, 7, 640, 480, 20, none, none, true⟩)], ["r1"]⟩ "r1").2
    ⟨"r1", "f.mp4", 2, 7, 640, 480, 20, none, none, true⟩ (by decide) (by decide)
  exact ⟨h.1, h.2.2⟩

/-! ### Video job (C8) -/

/-- Closed form of the frame loop with a non-zero frame total. -/
theorem process_frames_ok (total : Int) (h : total ≠ 0) :
    ∀ (l : List Nat) (fc : Nat),
      process_frames total l fc
        = Except.ok ((List.range l.length).map (fun k =>
            int_trunc (((fc + k + 1 : ℕ) : ℚ) / (total : ℚ) * 100))) := by
  intro l
  induction l with
  | nil => intro fc; rfl
  | cons f rest ih =>
    intro fc
    unfold process_frames
    rw [if_neg h, ih (fc + 1)]
    simp only [List.length_cons, List.range_succ_eq_map, List.map_cons, List.map_map]
    have hhead : fc + 0 + 1 = fc + 1 := by omega
    rw [hhead]
    have htail : ∀ a ∈ List.range rest.length,
        int_trunc (((fc + 1 + a + 1 : ℕ) : ℚ) / (total : ℚ) * 100)
          = ((fun k => int_trunc (((fc + k + 1 : ℕ) : ℚ) / (total : ℚ) * 100)) ∘ Nat.succ) a := by
      intro a _
      simp only [Function.comp]
      have harith : fc + 1 + a + 1 = fc + (a + 1) + 1 := by omega
      rw [harith]
    rw [List.map_congr_left htail]

/-- C8: a job whose input cannot be opened ends in state "error" with a
non-empty message and its progress untouched (0 for a fresh job); a job whose
frames are all processed ends "done" with progress 100 and a completion
timestamp, after reporting `int(frame_count/total_frames*100)` per frame —
which equals `floor(frame_count/total_frames·100)` whenever the total is
positive; a freshly created job starts at progress 0. -/
theorem video_job_spec (input : Option VideoMeta) (writerOk : Bool)
    (start finish : ℚ) (job : Job) :
    (input = none →
      (process_video input writerOk start finish job).1.state = "error" ∧
      ∃ msg, (process_video input writerOk start finish job).1.error = some msg ∧
        msg ≠ "" ∧
        (process_video input writerOk start finish job).1.progress = job.progress) ∧
    (∀ v, input = some v → writerOk = true → v.total_frames ≠ 0 →
      (process_video input writerOk start finish job).1.state = "done" ∧
      (process_video input writerOk start finish job).1.progress = 100 ∧
      (process_video input writerOk start finish job).1.completed_at = some finish ∧
      (process_video input writerOk start finish job).2
        = (List.range v.frames.length).map (fun k =>
            int_trunc (((0 + k + 1 : ℕ) : ℚ) / (v.total_frames : ℚ) * 100))) ∧
    (∀ k : Nat, ∀ tf : Int, 0 < tf →
      int_trunc ((k : ℚ) / (tf : ℚ) * 100) = Int.floor ((k : ℚ) / (tf : ℚ) * 100)) ∧
    (∀ jid ip od c, (create_job jid ip od c).progress = 0 ∧
      (create_job jid ip od c).state = "pending") := by
  refine ⟨?_, ?_, ?_, ?_⟩
  · intro hnone
    subst hnone
    refine ⟨rfl, "Could not open video file: " ++ job.input_path, rfl, ?_, rfl⟩
    intro hmsg
    have hlen := congrArg String.length hmsg
    rw [String.length_append] at hlen
    have h27 : ("Could not open video file: " : String).length = 27 := rfl
    have hz : ("" : String).length = 0 := rfl
    rw [h27, hz] at hlen
    omega
  · intro v hv hw htf
    subst hv
    subst hw
    have hok := process_frames_ok v.total_frames htf v.frames 0
    have hform : process_video (some v) true start finish job
        = ({ job with
              state := "done"
              progress := 100
              started_at := some start
              completed_at := some finish },
           (List.range v.frames.length).map (fun k =>
             int_trunc (((0 + k + 1 : ℕ) : ℚ) / (v.total_frames : ℚ) * 100))) := by
      unfold process_video
      dsimp only
      rw [hok, if_neg (by simp)]
    rw [hform]
    exact ⟨rfl, rfl, rfl, rfl⟩
  · intro k tf htf
    unfold int_trunc
    rw [if_neg]
    simp only [not_lt]
    positivity
  · intro jid ip od c
    exact ⟨rfl, rfl⟩

/-- Witness for `video_job_spec`: unopenable input on a fresh job ends in
"error" with progress still 0; a 4-frame exact video ends "done" at 100. -/
theorem video_job_spec_witness :
    (process_video none false 1 2 (create_job "j" "in.mp4" "./output" 0)).1.state
      = "error" ∧
    (process_video none false 1 2 (create_job "j" "in.mp4" "./output" 0)).1.progress
      = 0 ∧
    (process_video (some ⟨20, 640, 480, 4, [10, 11, 12, 13]⟩) true 1 2
      (create_job "k" "in2.mp4" "./output" 0)).1.state = "done" ∧
    (process_video (some ⟨20, 640, 480, 4, [10, 11, 12, 13]⟩) true 1 2
      (create_job "k" "in2.mp4" "./output" 0)).1.progress = 100 := by
  have h1 := (video_job_spec none false 1 2 (create_job "j" "in.mp4" "./output" 0)).1 rfl
  rcases h1.2 with ⟨msg, _hmsg, _hne, hprog⟩
  have h2 := (video_job_spec (some ⟨20, 640, 480, 4, [10, 11, 12, 13]⟩) true 1 2
    (create_job "k" "in2.mp4" "./output" 0)).2.1 ⟨20, 640, 480, 4, [10, 11, 12, 13]⟩
    rfl rfl (by decide)
  exact ⟨h1.1, hprog.trans rfl, h2.1, h2.2.1⟩

/-! ### Multi-camera layout (C1) -/

/-- Two width-`k` intervals anchored at multiples of `k` that share a point
have the same index. -/
theorem interval_unique {a b k x : Nat} (h1 : a * k ≤ x) (h2 : x < a * k + k)
    (h3 : b * k ≤ x) (h4 : x < b * k + k) : a = b := by
  rcases Nat.lt_trichotomy a b with h | h | h
  · exfalso
    have hm : (a + 1) * k ≤ b * k := Nat.mul_le_mul_right k h
    rw [Nat.add_mul, Nat.one_mul] at hm
    omega
  · exact h
  · exfalso
    have hm : (b + 1) * k ≤ a * k := Nat.mul_le_mul_right k h
    rw [Nat.add_mul, Nat.one_mul] at hm
    omega

/-- For a session of more than one camera, distinct positions occupy disjoint
cells: no pixel lies in both. -/
theorem cell_pos_disjoint (n i j fw fh r c : Nat) (hn : 1 < n) (hne : i ≠ j)
    (hri : (cell_pos n i fw fh).2 ≤ r ∧ r < (cell_pos n i fw fh).2 + fh)
    (hci : (cell_pos n i fw fh).1 ≤ c ∧ c < (cell_pos n i fw fh).1 + fw)
    (hrj : (cell_pos n j fw fh).2 ≤ r ∧ r < (cell_pos n j fw fh).2 + fh)
    (hcj : (cell_pos n j fw fh).1 ≤ c ∧ c < (cell_pos n j fw fh).1 + fw) : False := by
  have h1 : n ≠ 1 := by omega
  by_cases h2 : n = 2
  · have hcp : ∀ m, cell_pos n m fw fh = (m * fw, 0) := by
      intro m
      unfold cell_pos
      rw [if_neg h1, if_pos h2]
    rw [hcp i] at hci
    rw [hcp j] at hcj
    dsimp only at hci hcj
    exact hne (interval_unique hci.1 hci.2 hcj.1 hcj.2)
  by_cases h4 : n ≤ 4
  · have hcp : ∀ m, cell_pos n m fw fh = ((m % 2) * fw, (m / 2) * fh) := by
      intro m
      unfold cell_pos
      rw [if_neg h1, if_neg h2, if_pos h4]
    rw [hcp i] at hci hri
    rw [hcp j] at hcj hrj
    dsimp only at hci hri hcj hrj
    have hcol := interval_unique hci.1 hci.2 hcj.1 hcj.2
    have hrow := interval_unique hri.1 hri.2 hrj.1 hrj.2
    omega
  · have hcp : ∀ m, cell_pos n m fw fh
        = ((m % ceil_sqrt n) * fw, (m / ceil_sqrt n) * fh) := by
      intro m
      unfold cell_pos
      rw [if_neg h1, if_neg h2, if_neg h4]
    rw [hcp i] at hci hri
    rw [hcp j] at hcj hrj
    dsimp only at hci hri hcj hrj
    have hcol := interval_unique hci.1 hci.2 hcj.1 hcj.2
    have hrow := interval_unique hri.1 hri.2 hrj.1 hrj.2
    have e1 := Nat.div_add_mod i (ceil_sqrt n)
    have e2 := Nat.div_add_mod j (ceil_sqrt n)
    rw [hcol, hrow] at e1
    omega

/-- Facts about enumerated membership: index range and indexed value. -/
theorem mem_enumFrom_facts : ∀ (l : List Nat) (k i x : Nat), (i, x) ∈ l.enumFrom k →
    k ≤ i ∧ i < k + l.length ∧ l.get? (i - k) = some x := by
  intro l
  induction l with
  | nil => intro k i x h; simp at h
  | cons a rest ih =>
    intro k i x h
    rw [List.enumFrom_cons] at h
    rcases List.mem_cons.1 h with h | h
    · have h1 : i = k := congrArg Prod.fst h
      have h2 : x = a := congrArg Prod.snd h
      subst h1
      subst h2
      refine ⟨le_refl _, by simp only [List.length_cons]; omega, ?_⟩
      have hz : i - i = 0 := by omega
      rw [hz]
      rfl
    · have hrec := ih (k + 1) i x h
      refine ⟨by omega, by simp only [List.length_cons]; omega, ?_⟩
      have hsub : i - k = (i - (k + 1)) + 1 := by omega
      rw [hsub]
      exact hrec.2.2

/-- Pixels outside every placed cell keep their accumulator value. -/
theorem layout_fold_untouched (resizeF : Frame → Nat → Nat → Frame)
    (camera_frames : List (Nat × Frame)) (n fw fh : Nat) :
    ∀ (l : List (Nat × Nat)) (acc : Nat → Nat → Nat) (r c : Nat),
      (∀ icam ∈ l,
        camera_frames.find? (fun p => p.1 == icam.2) = none ∨
        ¬ ((cell_pos n icam.1 fw fh).2 ≤ r ∧ r < (cell_pos n icam.1 fw fh).2 + fh ∧
           (cell_pos n icam.1 fw fh).1 ≤ c ∧ c < (cell_pos n icam.1 fw fh).1 + fw)) →
      l.foldl (layout_place resizeF camera_frames n fw fh) acc r c = acc r c := by
  intro l
  induction l with
  | nil => intro acc r c _; rfl
  | cons icam rest ih =>
    intro acc r c hcond
    rw [List.foldl_cons]
    rw [ih _ r c (fun x hx => hcond x (List.mem_cons_of_mem _ hx))]
    rcases hcond icam (List.mem_cons_self _ _) with hmiss | hreg
    · unfold layout_place
      rw [hmiss]
    · unfold layout_place
      cases hf : camera_frames.find? (fun p => p.1 == icam.2) with
      | none => rfl
      | some p =>
        dsimp only
        unfold write_cell
        rw [if_neg hreg]

/-- A present key with duplicate-free keys is found with its value
(multi-camera recordings dict). -/
theorem mrec_find?_of_mem (l : List (String × MultiRecInfo)) (id : String)
    (info : MultiRecInfo) (hnd : (l.map Prod.fst).Nodup) (hmem : (id, info) ∈ l) :
    l.find? (fun p => p.1 == id) = some (id, info) := by
  induction l with
  | nil => simp at hmem
  | cons p rest ih =>
    simp only [List.map_cons, List.nodup_cons] at hnd
    rcases List.mem_cons.1 hmem with hm | hm
    · rw [List.find?_cons_of_pos _ (by rw [← hm]; simp)]
      rw [hm]
    · have hidmem : id ∈ rest.map Prod.fst := List.mem_map.2 ⟨(id, info), hm, rfl⟩
      have hne : p.1 ≠ id := fun he => hnd.1 (he ▸ hidmem)
      rw [List.find?_cons_of_neg _ (by simp [hne])]
      exact ih hnd.2 hm

/-- Counterexample to C1 as stated: for 5 cameras the code computes a
3-column × 2-row layout (3·640 × 2·480), not the ceil(√5) × ceil(√5) = 3×3
grid (3·640 × 3·480) the claim asserts. -/
theorem multi_camera_layout_counterexample :
    layout_dims 5 640 480 = (1920, 960) ∧
    specLayoutDims 5 640 480 = (1920, 1440) ∧
    layout_dims 5 640 480 ≠ specLayoutDims 5 640 480 := by
  have hs : Nat.sqrt 5 = 2 := by norm_num
  have hcs : ceil_sqrt 5 = 3 := by
    unfold ceil_sqrt
    rw [hs]
    norm_num
  have hcd : ceil_div 5 3 = 2 := by
    unfold ceil_div
    norm_num
  have h1 : layout_dims 5 640 480 = (1920, 960) := by
    unfold layout_dims
    rw [if_neg (by omega), if_neg (by omega), if_neg (by omega)]
    dsimp only
    rw [hcs, hcd]
  have h2 : specLayoutDims 5 640 480 = (1920, 1440) := by
    unfold specLayoutDims
    rw [if_neg (by omega), if_neg (by omega), if_neg (by omega), hcs]
  exact ⟨h1, h2, by rw [h1, h2]; decide⟩

/-- C1 (amended): the layout is unchanged for 1 camera, side-by-side for 2,
a 2×2 grid for 3 or 4, and for more than 4 cameras a grid of
cols = ceil(√n) columns and ceil(n/cols) rows; a camera id in the session's
camera list but missing from a write's frame map leaves its whole cell blank
(all zeros); the fourth cell of a 3-camera session is likewise all-blank; and
the write still succeeds. -/
theorem multi_camera_layout_spec (resizeF : Frame → Nat → Nat → Frame)
    (camera_frames : List (Nat × Frame)) (camera_ids : List Nat)
    (fw fh m n i cid r c : Nat)
    (recs : List (String × MultiRecInfo)) (rid : String) (info : MultiRecInfo) :
    layout_dims 1 fw fh = (fw, fh) ∧
    layout_dims 2 fw fh = (fw * 2, fh) ∧
    layout_dims 3 fw fh = (fw * 2, fh * 2) ∧
    layout_dims 4 fw fh = (fw * 2, fh * 2) ∧
    (4 < m → layout_dims m fw fh = (fw * ceil_sqrt m, fh * ceil_div m (ceil_sqrt m))) ∧
    (n = camera_ids.length → (i, cid) ∈ camera_ids.enum →
      camera_frames.find? (fun p => p.1 == cid) = none →
      (cell_pos n i fw fh).2 ≤ r → r < (cell_pos n i fw fh).2 + fh →
      (cell_pos n i fw fh).1 ≤ c → c < (cell_pos n i fw fh).1 + fw →
      create_layout_frame resizeF camera_frames camera_ids n fw fh r c = 0) ∧
    (camera_ids.length = 3 → fh ≤ r → r < 2 * fh → fw ≤ c → c < 2 * fw →
      create_layout_frame resizeF camera_frames camera_ids 3 fw fh r c = 0) ∧
    ((recs.map Prod.fst).Nodup → (rid, info) ∈ recs → info.is_recording = true →
      (write_multi_camera_frame resizeF recs rid camera_frames).1 = true ∧
      (write_multi_camera_frame resizeF recs rid camera_frames).2.2
        = some (create_layout_frame resizeF camera_frames info.camera_ids
            info.num_cameras info.frame_width info.frame_height)) := by
  refine ⟨rfl, rfl, rfl, rfl, ?_, ?_, ?_, ?_⟩
  · intro hm
    unfold layout_dims
    rw [if_neg (by omega), if_neg (by omega), if_neg (by omega)]
  · intro hn hmem hmiss hr1 hr2 hc1 hc2
    unfold create_layout_frame
    rw [layout_fold_untouched resizeF camera_frames n fw fh camera_ids.enum _ r c ?_]
    intro icam hicam
    have h1 := mem_enumFrom_facts camera_ids 0 icam.1 icam.2 hicam
    have h2 := mem_enumFrom_facts camera_ids 0 i cid hmem
    by_cases hii : icam.1 = i
    · left
      rw [hii] at h1
      have hxy : icam.2 = cid := by
        have e1 := h1.2.2
        have e2 := h2.2.2
        exact Option.some.inj (e1.symm.trans e2)
      rw [hxy]
      exact hmiss
    · right
      intro hreg
      by_cases hn1 : n = 1
      · have hb1 : icam.1 < 1 := by omega
        have hb2 : i < 1 := by omega
        omega
      · exact cell_pos_disjoint n i icam.1 fw fh r c (by omega) (fun he => hii he.symm)
          ⟨hr1, hr2⟩ ⟨hc1, hc2⟩ ⟨hreg.1, hreg.2.1⟩ ⟨hreg.2.2.1, hreg.2.2.2⟩
  · intro hlen hr1 hr2 hc1 hc2
    unfold create_layout_frame
    rw [layout_fold_untouched resizeF camera_frames 3 fw fh camera_ids.enum _ r c ?_]
    intro icam hicam
    right
    intro hreg
    have h1 := mem_enumFrom_facts camera_ids 0 icam.1 icam.2 hicam
    have hcp3 : cell_pos 3 3 fw fh = (fw, fh) := by
      unfold cell_pos
      norm_num
    apply cell_pos_disjoint 3 3 icam.1 fw fh r c (by omega) (by omega)
    · rw [hcp3]
      exact ⟨hr1, by omega⟩
    · rw [hcp3]
      exact ⟨hc1, by omega⟩
    · exact ⟨hreg.1, hreg.2.1⟩
    · exact ⟨hreg.2.2.1, hreg.2.2.2⟩
  · intro hnd hmem hrec
    unfold write_multi_camera_frame
    rw [mrec_find?_of_mem recs rid info hnd hmem]
    dsimp only
    rw [if_neg (by simp [hrec])]
    exact ⟨rfl, rfl⟩

/-- Witness for `multi_camera_layout_spec`: a 3-camera session with camera 3
missing from the write leaves camera 3's cell (and the fourth cell) blank. -/
theorem multi_camera_layout_spec_witness :
    create_layout_frame (fun f _ _ => f)
      [(1, ⟨2, 2, fun _ _ => 7⟩), (2, ⟨2, 2, fun _ _ => 8⟩)] [1, 2, 3] 3 2 2 2 0 = 0 := by
  have h := (multi_camera_layout_spec (fun f _ _ => f)
    [(1, ⟨2, 2, fun _ _ => 7⟩), (2, ⟨2, 2, fun _ _ => 8⟩)] [1, 2, 3]
    2 2 5 3 2 3 2 0 [] "r" ⟨"r", "f", 0, 0, 4, 4, 2, 2, 20, [1, 2, 3], 3, true⟩).2.2.2.2.2.1
  exact h rfl (by decide) rfl (by decide) (by decide) (by decide) (by decide)

end AttentionApp
